import Mathlib

/-!
Verification development for the wmos-monitor change tracker.

The Python sources are shallowly embedded as executable Lean functions:
* `src/tracker/code_analyzer.py` — `normalize_code`, `hash_code`,
  `generate_diff`, `save_to_filesystem` (content part);
* `src/database/sqlite_store.py` — the ledger operations over an explicit
  `Ledger` state;
* `src/tracker/change_tracker.py` — `_process_object` and
  `send_daily_summary` over the ledger, with explicit failure injection for
  the store writes (an exception that aborts before the statement it guards,
  matching sqlite's per-statement failure behaviour);
* `src/main.py` — `calculate_next_runtime`.

Conventions of the embedding:
* texts are `List Char` (wrapped in `String` at the model surface); the
  embedding is faithful for the ASCII texts the tracker manipulates, and the
  multi-byte UTF-8 encoding used by `hash_code` is implemented exactly;
* Python regular expressions are hand-translated into dedicated scanners,
  one per pattern, reproducing the scanning/replacement semantics of
  `re.sub`/`re.search` for that pattern (leftmost match, global replacement,
  `re.MULTILINE`/`re.IGNORECASE` where the source passes those flags);
* SQL `TEXT` dates in ISO `YYYY-MM-DD` format compare lexicographically
  exactly as their day numbers compare numerically, so capture/change dates
  are embedded as `Nat` day numbers and `datetime.now()` instants as `Nat`
  hours; machine-width arithmetic (MD5) is `Nat` with explicit `% 2^32`.
-/

/-! ### Python character classes (ASCII fragment) -/

/-- Python `str.isspace`/regex `\s` membership, ASCII fragment:
space, tab, newline, carriage return, vertical tab, form feed. -/
def pyWs (c : Char) : Bool :=
  c = ' ' || c = '\t' || c = '\n' || c = '\r' || c.toNat = 11 || c.toNat = 12

/-- Python regex `\w` membership, ASCII fragment: letters, digits, underscore. -/
def pyWordChar (c : Char) : Bool :=
  c.isAlpha || c.isDigit || c = '_'

/-- Python `str.splitlines` boundary characters, Latin fragment:
`\n`, `\r`, `\v`, `\f`, `\x1c`, `\x1d`, `\x1e`, `\x85`, ` `, ` `. -/
def pyLineBoundary (c : Char) : Bool :=
  c = '\n' || c = '\r' || c.toNat = 11 || c.toNat = 12 ||
  c.toNat = 28 || c.toNat = 29 || c.toNat = 30 || c.toNat = 133 ||
  c.toNat = 8232 || c.toNat = 8233

/-- Case-insensitive match of one pattern character (`re.IGNORECASE`):
an alphabetic pattern character matches either case, any other pattern
character matches exactly.  The object-type patterns are upper-case ASCII. -/
def ciMatches (p c : Char) : Bool :=
  if p.isAlpha then c.toUpper = p else c = p

/-! ### `code.replace("\r\n", "\n")` -/

/-- Python `code.replace("\r\n", "\n")`: every CRLF pair becomes LF. -/
def pyCrlf : List Char → List Char
  | [] => []
  | [c] => [c]
  | c :: d :: rest =>
    if c = '\r' && d = '\n' then '\n' :: pyCrlf rest
    else c :: pyCrlf (d :: rest)

/-! ### `str.splitlines()` -/

/-- Worker for `pySplitlines`; `cur` is the current line accumulated in
reverse. -/
def pslGo (cur : List Char) : List Char → List (List Char)
  | [] => if cur.isEmpty then [] else [cur.reverse]
  | [c] => if pyLineBoundary c then [cur.reverse] else [(c :: cur).reverse]
  | c :: d :: rest =>
    if c = '\r' && d = '\n' then cur.reverse :: pslGo [] rest
    else if pyLineBoundary c then cur.reverse :: pslGo [] (d :: rest)
    else pslGo (c :: cur) (d :: rest)

/-- Python `str.splitlines()` (without keepends): splits at the boundary
characters, treating `\r\n` as a single boundary, and drops a trailing
empty line. -/
def pySplitlines (xs : List Char) : List (List Char) :=
  pslGo [] xs

/-! ### `str.split()` and `" ".join(...)` -/

/-- Worker for `pySplit`; `cur` is the current word accumulated in reverse. -/
def psGo (cur : List Char) : List Char → List (List Char)
  | [] => if cur.isEmpty then [] else [cur.reverse]
  | c :: rest =>
    if pyWs c then
      if cur.isEmpty then psGo [] rest else cur.reverse :: psGo [] rest
    else psGo (c :: cur) rest

/-- Python `str.split()` with no argument: maximal runs of non-whitespace. -/
def pySplit (xs : List Char) : List (List Char) :=
  psGo [] xs

/-- `sep.join(parts)` on character lists. -/
def joinWith (sep : List Char) : List (List Char) → List Char
  | [] => []
  | [w] => w
  | w :: rest => w ++ sep ++ joinWith sep rest

/-- `" ".join(code.split())`: collapse every whitespace run to one space. -/
def collapseWs (xs : List Char) : List Char :=
  joinWith [' '] (pySplit xs)

/-! ### `re.sub(r"/\*[\s\S]*?\*/", " ", code)` — block comments -/

/-- Does `*/` occur anywhere in the text? -/
def hasStarSlash : List Char → Bool
  | [] => false
  | c :: rest =>
    if c = '*' then
      match rest with
      | [] => false
      | d :: _ => if d = '/' then true else hasStarSlash rest
    else hasStarSlash rest

/-- Scanner for the block-comment substitution.  In mode `false` it copies
text, and at a `/*` opener that has a later `*/` it emits the single-space
replacement and switches to mode `true`, which drops text up to and
including the first `*/`.  A `/*` with no later `*/` cannot start a match
(nor can anything after it, since any later match would need a `*/`), so
the rest of the text is copied verbatim, as `re.sub` leaves it. -/
def sbAux : Bool → List Char → List Char
  | false, [] => []
  | false, [c] => [c]
  | false, c :: d :: rest =>
    if c = '/' && d = '*' then
      if hasStarSlash rest then ' ' :: sbAux true rest
      else '/' :: '*' :: rest
    else c :: sbAux false (d :: rest)
  | true, [] => []
  | true, [_] => []
  | true, c :: d :: rest =>
    if c = '*' && d = '/' then sbAux false rest
    else sbAux true (d :: rest)

/-- `re.sub(r"/\*[\s\S]*?\*/", " ", code)`: replace each non-greedy block
comment with one space. -/
def stripBlockComments (xs : List Char) : List Char :=
  sbAux false xs

/-! ### `re.sub(r"--.*$", " ", code, flags=re.MULTILINE)` — line comments -/

/-- Scanner for the line-comment substitution.  Mode `false` copies text; at
`--` it emits the single-space replacement and switches to mode `true`,
which drops characters up to (not including) the next newline. -/
def slAux : Bool → List Char → List Char
  | false, [] => []
  | false, [c] => [c]
  | false, c :: d :: rest =>
    if c = '-' && d = '-' then ' ' :: slAux true rest
    else c :: slAux false (d :: rest)
  | true, [] => []
  | true, c :: rest =>
    if c = '\n' then '\n' :: slAux false rest else slAux true rest

/-- `re.sub(r"--.*$", " ", code, flags=re.MULTILINE)`: replace each `--`
comment up to end of line with one space (the newline itself is kept). -/
def stripLineComments (xs : List Char) : List Char :=
  slAux false xs

/-! ### Object-type patterns `^\s*(T\s+\w+)` (`re.IGNORECASE | re.MULTILINE`)
and `CREATE\s+OR\s+REPLACE\s+T` (`re.IGNORECASE`) -/

/-- Match the literal pattern word `T` case-insensitively at the head of
`xs`; returns the matched text (original case) and the remainder. -/
def matchCI (T : List Char) (xs : List Char) : Option (List Char × List Char) :=
  match T, xs with
  | [], xs => some ([], xs)
  | _ :: _, [] => none
  | p :: T', c :: xs' =>
    if ciMatches p c then
      match matchCI T' xs' with
      | some (m, r) => some (c :: m, r)
      | none => none
    else none

/-- Match `T\s+\w+` at the head of `xs` (the parenthesised group of the
object-type pattern); returns the group text and the remainder.  The greedy
`\s*`/`\s+`/`\w+` quantifiers never backtrack here because the following
pattern element is from a disjoint character class. -/
def matchTypeHead (T : List Char) (xs : List Char) : Option (List Char × List Char) :=
  match matchCI T xs with
  | none => none
  | some (mt, r1) =>
    let ws := r1.takeWhile pyWs
    let r2 := r1.dropWhile pyWs
    if ws.isEmpty then none
    else
      let w := r2.takeWhile pyWordChar
      let r3 := r2.dropWhile pyWordChar
      if w.isEmpty then none else some (mt ++ ws ++ w, r3)

/-- Match the full object-type pattern `^\s*(T\s+\w+)` at a line-start
position; returns the group text and the remainder (the leading `\s*` is
part of the match but not of the group). -/
def matchPatAt (T : List Char) (xs : List Char) : Option (List Char × List Char) :=
  matchTypeHead T (xs.dropWhile pyWs)

/-- Worker for `searchPat`: `atLS` records whether the current position is a
line start (string start or just after a newline), the only positions where
`^` can match. -/
def searchPatGo (T : List Char) : Bool → List Char → Bool
  | _, [] => false
  | atLS, c :: rest =>
    (atLS && (matchPatAt T (c :: rest)).isSome) || searchPatGo T (c = '\n') rest

/-- `re.search(r"^\s*(T\s+\w+)", xs, re.IGNORECASE | re.MULTILINE)` as a
Boolean. -/
def searchPat (T : List Char) (xs : List Char) : Bool :=
  searchPatGo T true xs

/-- Match `CREATE\s+OR\s+REPLACE\s+T` (case-insensitive) at the head of
`xs`. -/
def matchCORPAt (T : List Char) (xs : List Char) : Bool :=
  match matchCI ("CREATE".data) xs with
  | none => false
  | some (_, r1) =>
    let w1 := r1.takeWhile pyWs
    if w1.isEmpty then false
    else
      match matchCI ("OR".data) (r1.dropWhile pyWs) with
      | none => false
      | some (_, r2) =>
        let w2 := r2.takeWhile pyWs
        if w2.isEmpty then false
        else
          match matchCI ("REPLACE".data) (r2.dropWhile pyWs) with
          | none => false
          | some (_, r3) =>
            let w3 := r3.takeWhile pyWs
            if w3.isEmpty then false
            else (matchCI T (r3.dropWhile pyWs)).isSome

/-- `re.search(rf"CREATE\s+OR\s+REPLACE\s+T", xs, re.IGNORECASE)` as a
Boolean: the pattern is unanchored, so every position is tried. -/
def searchCORP (T : List Char) : List Char → Bool
  | [] => false
  | c :: rest => matchCORPAt T (c :: rest) || searchCORP T rest

/-- The replacement prefix of `f"CREATE OR REPLACE \\1"`. -/
def corpReplacement : List Char := "CREATE OR REPLACE ".data

/-- Worker for `subPat`: global replacement of `^\s*(T\s+\w+)` by
`CREATE OR REPLACE \1`.  The scan advances one character at a time; at a
line start a match consumes the whole matched span (dropping the leading
whitespace, which is inside the match but outside the group) and resumes
after it.  `fuel` bounds the number of steps; every step consumes at least
one character, so `xs.length + 1` is always enough. -/
def subPatGo (T : List Char) : Nat → Bool → List Char → List Char
  | 0, _, xs => xs
  | _ + 1, _, [] => []
  | fuel + 1, atLS, c :: rest =>
    if atLS then
      match matchPatAt T (c :: rest) with
      | some (grp, r) => corpReplacement ++ grp ++ subPatGo T fuel false r
      | none => c :: subPatGo T fuel (c = '\n') rest
    else c :: subPatGo T fuel (c = '\n') rest

/-- `re.sub(rf"^\s*(T\s+\w+)", f"CREATE OR REPLACE \\1", xs,
flags=re.IGNORECASE | re.MULTILINE)`. -/
def subPat (T : List Char) (xs : List Char) : List Char :=
  subPatGo T (xs.length + 1) true xs

/-! ### `re.sub(r'"[A-Z0-9_]+"\.(".*?")', r"\1", xs)` — schema qualifier -/

/-- Match the schema-qualifier pattern at the head of `xs`; returns the
group (the second quoted identifier, quotes included) and the remainder.
`.` does not match a newline, and `.*?` is non-greedy, so the group closes
at the first `"` provided no newline intervenes. -/
def matchQualAt (xs : List Char) : Option (List Char × List Char) :=
  match xs with
  | '"' :: r1 =>
    let idrun := r1.takeWhile (fun c => c.isUpper || c.isDigit || c = '_')
    let r2 := r1.dropWhile (fun c => c.isUpper || c.isDigit || c = '_')
    if idrun.isEmpty then none
    else
      match r2 with
      | '"' :: '.' :: '"' :: r3 =>
        let mid := r3.takeWhile (fun c => !(c = '"') && !(c = '\n'))
        let r4 := r3.dropWhile (fun c => !(c = '"') && !(c = '\n'))
        match r4 with
        | '"' :: r5 => some ('"' :: (mid ++ ['"']), r5)
        | _ => none
      | _ => none
  | _ => none

/-- Worker for `qualStrip`; `fuel` bounds the steps, each of which consumes
at least one character. -/
def qualStripGo : Nat → List Char → List Char
  | 0, xs => xs
  | _ + 1, [] => []
  | fuel + 1, c :: rest =>
    match matchQualAt (c :: rest) with
    | some (grp, r) => grp ++ qualStripGo fuel r
    | none => c :: qualStripGo fuel rest

/-- `re.sub(r'"[A-Z0-9_]+"\.(".*?")', r"\1", xs)`: strip a quoted schema
qualifier, keeping only the quoted identifier. -/
def qualStrip (xs : List Char) : List Char :=
  qualStripGo (xs.length + 1) xs

/-- `re.sub(r"\s+$", "", xs)`: for this anchored pattern global substitution
amounts to removing all trailing whitespace. -/
def dropTrailWs (xs : List Char) : List Char :=
  (xs.reverse.dropWhile pyWs).reverse

/-! ### `CodeAnalyzer.normalize_code` -/

/-- The object types scanned by `normalize_code` and `save_to_filesystem`,
in source order. -/
def objTypes : List (List Char) :=
  ["PROCEDURE", "FUNCTION", "TRIGGER", "VIEW", "PACKAGE", "PACKAGE BODY",
   "TYPE", "TYPE BODY"].map String.data

/-- The `for obj_type in obj_types:` loop of `normalize_code`.  For each
type the first conditional rewrites `normalized` in place; the second
conditional, when its guards fire, recomputes `normalized` from
`clean_code` (exactly as the source does — note that this discards the
comment stripping). -/
def objTypeLoop : List (List Char) → List Char → List Char → List Char
  | [], normalized, _ => normalized
  | T :: Ts, normalized, clean =>
    let n1 := if searchPat T normalized && !(searchCORP T normalized)
              then subPat T normalized else normalized
    let n2 := if searchPat T clean && !(searchCORP T clean)
              then subPat T clean else n1
    objTypeLoop Ts n2 clean

/-- `CodeAnalyzer.normalize_code` on character lists: returns
`(clean_code, normalized)`. -/
def normalizeCodeL (code : Option (List Char)) : List Char × List Char :=
  match code with
  | none => ([], [])
  | some raw =>
    let code := pyCrlf raw
    let cleanCode := code
    let n1 := stripBlockComments code
    let n2 := stripLineComments n1
    let n3 := objTypeLoop objTypes n2 cleanCode
    let n4 := collapseWs n3
    let n5 := n4.map Char.toUpper
    let n6 := qualStrip n5
    let n7 := dropTrailWs n6
    (cleanCode, n7)

/-- `CodeAnalyzer.normalize_code` on strings (`None` becomes `none`). -/
def normalize_code (code : Option String) : String × String :=
  let r := normalizeCodeL (code.map String.data)
  (String.mk r.1, String.mk r.2)

/-! ### `CodeAnalyzer.hash_code` — MD5 (`hashlib.md5(...).hexdigest()`)

MD5 (RFC 1321) over `Nat`, with 32-bit wrap-around made explicit by
`% 4294967296`. -/

/-- Truncate to a 32-bit word. -/
def u32 (n : Nat) : Nat := n % 4294967296

/-- 32-bit left rotation. -/
def rotl32 (x s : Nat) : Nat :=
  u32 (Nat.lor (u32 (Nat.shiftLeft x s)) (Nat.shiftRight x (32 - s)))

/-- 32-bit bitwise complement. -/
def not32 (x : Nat) : Nat := Nat.xor x 4294967295

/-- The MD5 sine-derived round constants. -/
def md5K : List Nat :=
  [3614090360, 3905402710, 606105819, 3250441966, 4118548399, 1200080426,
   2821735955, 4249261313, 1770035416, 2336552879, 4294925233, 2304563134,
   1804603682, 4254626195, 2792965006, 1236535329, 4129170786, 3225465664,
   643717713, 3921069994, 3593408605, 38016083, 3634488961, 3889429448,
   568446438, 3275163606, 4107603335, 1163531501, 2850285829, 4243563512,
   1735328473, 2368359562, 4294588738, 2272392833, 1839030562, 4259657740,
   2763975236, 1272893353, 4139469664, 3200236656, 681279174, 3936430074,
   3572445317, 76029189, 3654602809, 3873151461, 530742520, 3299628645,
   4096336452, 1126891415, 2878612391, 4237533241, 1700485571, 2399980690,
   4293915773, 2240044497, 1873313359, 4264355552, 2734768916, 1309151649,
   4149444226, 3174756917, 718787259, 3951481745]

/-- The MD5 per-round shift amounts. -/
def md5S : List Nat :=
  [7, 12, 17, 22, 7, 12, 17, 22, 7, 12, 17, 22, 7, 12, 17, 22,
   5, 9, 14, 20, 5, 9, 14, 20, 5, 9, 14, 20, 5, 9, 14, 20,
   4, 11, 16, 23, 4, 11, 16, 23, 4, 11, 16, 23, 4, 11, 16, 23,
   6, 10, 15, 21, 6, 10, 15, 21, 6, 10, 15, 21, 6, 10, 15, 21]

/-- One MD5 round: `i` is the round index, `m` the sixteen message words,
`(a, b, c, d)` the working state. -/
def md5Round (m : List Nat) (st : Nat × Nat × Nat × Nat) (i : Nat) :
    Nat × Nat × Nat × Nat :=
  let (a, b, c, d) := st
  let f :=
    if i < 16 then Nat.lor (Nat.land b c) (Nat.land (not32 b) d)
    else if i < 32 then Nat.lor (Nat.land d b) (Nat.land (not32 d) c)
    else if i < 48 then Nat.xor b (Nat.xor c d)
    else Nat.xor c (Nat.lor b (not32 d))
  let g :=
    if i < 16 then i
    else if i < 32 then (5 * i + 1) % 16
    else if i < 48 then (3 * i + 5) % 16
    else (7 * i) % 16
  let x := u32 (f + a + md5K.getD i 0 + m.getD g 0)
  let b' := u32 (b + rotl32 x (md5S.getD i 0))
  (d, b', b, c)

/-- Process one 512-bit block (sixteen words) into the running digest. -/
def md5Block (digest : Nat × Nat × Nat × Nat) (m : List Nat) :
    Nat × Nat × Nat × Nat :=
  let (a0, b0, c0, d0) := digest
  let (a, b, c, d) := (List.range 64).foldl (md5Round m) (a0, b0, c0, d0)
  (u32 (a0 + a), u32 (b0 + b), u32 (c0 + c), u32 (d0 + d))

/-- Gather a byte list into little-endian 32-bit words (the length is a
multiple of four after padding). -/
def leWords : List Nat → List Nat
  | b0 :: b1 :: b2 :: b3 :: rest =>
    (b0 + 256 * b1 + 65536 * b2 + 16777216 * b3) :: leWords rest
  | _ => []

/-- Split a word list into sixteen-word blocks (the padded length is a
multiple of sixteen words). -/
def blocks16 : List Nat → List (List Nat)
  | w0 :: w1 :: w2 :: w3 :: w4 :: w5 :: w6 :: w7 ::
    w8 :: w9 :: w10 :: w11 :: w12 :: w13 :: w14 :: w15 :: rest =>
    [w0, w1, w2, w3, w4, w5, w6, w7, w8, w9, w10, w11, w12, w13, w14, w15]
      :: blocks16 rest
  | _ => []

/-- MD5 padding: append `0x80`, zero-fill to 56 mod 64 bytes, then the
original bit length as eight little-endian bytes. -/
def md5Pad (msg : List Nat) : List Nat :=
  let len := msg.length
  let zeros := (119 - len % 64) % 64
  let bitLen := (8 * len) % 18446744073709551616
  msg ++ [128] ++ List.replicate zeros 0 ++
    (List.range 8).map (fun j => Nat.shiftRight bitLen (8 * j) % 256)

/-- Render one byte as two lowercase hex characters. -/
def byteHex (b : Nat) : List Char :=
  let hexChar := fun n => if n < 10 then Char.ofNat (48 + n) else Char.ofNat (87 + n)
  [hexChar (b / 16), hexChar (b % 16)]

/-- Render a 32-bit word as eight hex characters, little-endian byte order. -/
def wordHex (w : Nat) : List Char :=
  byteHex (w % 256) ++ byteHex (w / 256 % 256) ++
  byteHex (w / 65536 % 256) ++ byteHex (w / 16777216 % 256)

/-- `hashlib.md5(bytes).hexdigest()` as a character list. -/
def md5HexChars (msg : List Nat) : List Char :=
  let init := (1732584193, 4023233417, 2562383102, 271733878)
  let (a, b, c, d) := (blocks16 (leWords (md5Pad msg))).foldl md5Block init
  wordHex a ++ wordHex b ++ wordHex c ++ wordHex d

/-- Python `str.encode()` — UTF-8 encoding of a character list. -/
def utf8Encode : List Char → List Nat
  | [] => []
  | c :: rest =>
    let n := c.toNat
    (if n < 128 then [n]
     else if n < 2048 then [192 + n / 64, 128 + n % 64]
     else if n < 65536 then [224 + n / 4096, 128 + n / 64 % 64, 128 + n % 64]
     else [240 + n / 262144, 128 + n / 4096 % 64, 128 + n / 64 % 64, 128 + n % 64])
      ++ utf8Encode rest

/-- `CodeAnalyzer.hash_code`: the MD5 hex digest of the normalized code. -/
def hash_code (normalized_code : String) : String :=
  String.mk (md5HexChars (utf8Encode normalized_code.data))

/-! ### `difflib.unified_diff` (as called by `CodeAnalyzer.generate_diff`)

Port of CPython's `difflib.SequenceMatcher(None, a, b)` /
`unified_diff(a, b, fromfile="previous", tofile="current", lineterm="")`.
With `isjunk=None` the junk set `bjunk` is empty, so the two
junk-extension `while` loops of `find_longest_match` never run and are
omitted; `autojunk` popularity discarding (active only when
`len(b) >= 200`) is ported.  Queue/fuel bounds are chosen so that the fuel
never runs out (each queue step strictly decreases the summed interval
sizes, which the initial fuel dominates). -/

/-- A Python slice `l[i:j]` (with the usual clamping). -/
def pySlice (l : List (List Char)) (i j : Nat) : List (List Char) :=
  (l.take j).drop i

/-- Build `b2j`: for each line of `b`, the ascending list of its indices. -/
def b2jBuild (b : List (List Char)) : List (List Char × List Nat) :=
  b.enum.foldl
    (fun m p =>
      if (m.lookup p.2).isSome then
        m.map (fun e => if e.1 = p.2 then (e.1, e.2 ++ [p.1]) else e)
      else m ++ [(p.2, [p.1])])
    []

/-- The `autojunk` purge: when `len(b) >= 200`, drop entries occurring more
than `len(b) // 100 + 1` times. -/
def b2jAutojunk (n : Nat) (m : List (List Char × List Nat)) :
    List (List Char × List Nat) :=
  if 200 ≤ n then m.filter (fun e => !(n / 100 + 1 < e.2.length)) else m

/-- `b2j` of `SequenceMatcher(None, a, b)`. -/
def b2jOf (b : List (List Char)) : List (List Char × List Nat) :=
  b2jAutojunk b.length (b2jBuild b)

/-- Inner loop of `find_longest_match`: walk the ascending occurrence list
of `a[i]`, building the new `j2len` table and updating the best match.
State: `(newj2len, besti, bestj, bestsize)`. -/
def flmInner (j2len : List (Nat × Nat)) (i blo bhi : Nat) :
    List Nat → List (Nat × Nat) × Nat × Nat × Nat → List (Nat × Nat) × Nat × Nat × Nat
  | [], st => st
  | j :: js, st =>
    let (newj2len, besti, bestj, bestsize) := st
    if j < blo then flmInner j2len i blo bhi js st
    else if bhi ≤ j then st
    else
      let k := (if j = 0 then 0 else (j2len.lookup (j - 1)).getD 0) + 1
      let st' :=
        if bestsize < k then ((j, k) :: newj2len, i + 1 - k, j + 1 - k, k)
        else ((j, k) :: newj2len, besti, bestj, bestsize)
      flmInner j2len i blo bhi js st'

/-- Outer loop of `find_longest_match` over `i` in `[alo, ahi)`.
State: `(j2len, besti, bestj, bestsize)`. -/
def flmOuter (a : List (List Char)) (b2j : List (List Char × List Nat))
    (blo bhi : Nat) :
    List Nat → List (Nat × Nat) × Nat × Nat × Nat → List (Nat × Nat) × Nat × Nat × Nat
  | [], st => st
  | i :: is, st =>
    let (j2len, besti, bestj, bestsize) := st
    let js := (b2j.lookup (a.getD i [])).getD []
    let (newj2len, bi, bj, bs) := flmInner j2len i blo bhi js ([], besti, bestj, bestsize)
    flmOuter a b2j blo bhi is (newj2len, bi, bj, bs)

/-- Leftward equality extension of the best match (the junk-free extension
loop; the junk variant is vacuous with `isjunk=None`).  `fuel` starts at
`i`, which bounds the number of steps. -/
def extendLeft (a b : List (List Char)) (alo blo : Nat) :
    Nat → Nat → Nat → Nat
  | 0, _, _ => 0
  | fuel + 1, i, j =>
    if alo < i && blo < j && (decide (a.getD (i - 1) [] = b.getD (j - 1) [])) then
      1 + extendLeft a b alo blo fuel (i - 1) (j - 1)
    else 0

/-- Rightward equality extension of the best match; `fuel` starts at
`ahi`. -/
def extendRight (a b : List (List Char)) (ahi bhi : Nat) :
    Nat → Nat → Nat → Nat
  | 0, _, _ => 0
  | fuel + 1, i, j =>
    if i < ahi && j < bhi && (decide (a.getD i [] = b.getD j [])) then
      1 + extendRight a b ahi bhi fuel (i + 1) (j + 1)
    else 0

/-- `SequenceMatcher.find_longest_match(alo, ahi, blo, bhi)`. -/
def find_longest_match (a b : List (List Char))
    (b2j : List (List Char × List Nat)) (alo ahi blo bhi : Nat) :
    Nat × Nat × Nat :=
  let (_, besti, bestj, bestsize) :=
    flmOuter a b2j blo bhi (List.range' alo (ahi - alo)) ([], alo, blo, 0)
  let e := extendLeft a b alo blo besti besti bestj
  let (besti, bestj, bestsize) := (besti - e, bestj - e, bestsize + e)
  let f := extendRight a b ahi bhi ahi (besti + bestsize) (bestj + bestsize)
  (besti, bestj, bestsize + f)

/-- The `queue` loop of `get_matching_blocks`; the collected blocks are
sorted afterwards, so traversal order is irrelevant.  Each step removes an
interval pair and pushes strictly smaller ones, so `fuel = la + lb + 2`
suffices. -/
def mbLoop (a b : List (List Char)) (b2j : List (List Char × List Nat)) :
    Nat → List (Nat × Nat × Nat × Nat) → List (Nat × Nat × Nat) → List (Nat × Nat × Nat)
  | 0, _, acc => acc
  | _ + 1, [], acc => acc
  | fuel + 1, (alo, ahi, blo, bhi) :: queue, acc =>
    let (i, j, k) := find_longest_match a b b2j alo ahi blo bhi
    if k ≠ 0 then
      let q1 := if alo < i && blo < j then (alo, i, blo, j) :: queue else queue
      let q2 := if i + k < ahi && j + k < bhi then (i + k, ahi, j + k, bhi) :: q1 else q1
      mbLoop a b b2j fuel q2 ((i, j, k) :: acc)
    else mbLoop a b b2j fuel queue acc

/-- Lexicographic order on index triples (Python tuple comparison for
`matching_blocks.sort()`). -/
def tripleLe (x y : Nat × Nat × Nat) : Bool :=
  x.1 < y.1 || (x.1 = y.1 && (x.2.1 < y.2.1 || (x.2.1 = y.2.1 && x.2.2 ≤ y.2.2)))

/-- Insertion sort by `tripleLe`. -/
def insertTriple (x : Nat × Nat × Nat) : List (Nat × Nat × Nat) → List (Nat × Nat × Nat)
  | [] => [x]
  | y :: ys => if tripleLe x y then x :: y :: ys else y :: insertTriple x ys

/-- Sort index triples ascending. -/
def sortTriples : List (Nat × Nat × Nat) → List (Nat × Nat × Nat)
  | [] => []
  | x :: xs => insertTriple x (sortTriples xs)

/-- The adjacent-block collapsing pass of `get_matching_blocks`.
State: `(i1, j1, k1)`, the block under construction. -/
def collapseBlocks : Nat × Nat × Nat → List (Nat × Nat × Nat) → List (Nat × Nat × Nat)
  | (i1, j1, k1), [] => if k1 ≠ 0 then [(i1, j1, k1)] else []
  | (i1, j1, k1), (i2, j2, k2) :: rest =>
    if i1 + k1 = i2 && j1 + k1 = j2 then collapseBlocks (i1, j1, k1 + k2) rest
    else if k1 ≠ 0 then (i1, j1, k1) :: collapseBlocks (i2, j2, k2) rest
    else collapseBlocks (i2, j2, k2) rest

/-- `SequenceMatcher.get_matching_blocks()`. -/
def get_matching_blocks (a b : List (List Char)) : List (Nat × Nat × Nat) :=
  let b2j := b2jOf b
  let raw := mbLoop a b b2j (a.length + b.length + 2) [(0, a.length, 0, b.length)] []
  collapseBlocks (0, 0, 0) (sortTriples raw) ++ [(a.length, b.length, 0)]

/-- Opcode tags of `get_opcodes`. -/
inductive DiffTag where
  | equal | replace | delete | insert
deriving DecidableEq, Repr

/-- One opcode `(tag, i1, i2, j1, j2)`. -/
structure Opcode where
  tag : DiffTag
  i1 : Nat
  i2 : Nat
  j1 : Nat
  j2 : Nat
deriving DecidableEq, Repr

/-- The loop of `get_opcodes` over the matching blocks.
State: `(i, j)`. -/
def opcodesLoop : Nat → Nat → List (Nat × Nat × Nat) → List Opcode
  | _, _, [] => []
  | i, j, (ai, bj, size) :: rest =>
    let pre :=
      if i < ai && j < bj then [Opcode.mk .replace i ai j bj]
      else if i < ai then [Opcode.mk .delete i ai j bj]
      else if j < bj then [Opcode.mk .insert i ai j bj]
      else []
    let eq := if size ≠ 0 then [Opcode.mk .equal ai (ai + size) bj (bj + size)] else []
    pre ++ eq ++ opcodesLoop (ai + size) (bj + size) rest

/-- `SequenceMatcher.get_opcodes()`. -/
def get_opcodes (a b : List (List Char)) : List Opcode :=
  opcodesLoop 0 0 (get_matching_blocks a b)

/-- Shrink a leading `equal` opcode to at most `n` lines of context. -/
def fixFirst (n : Nat) : List Opcode → List Opcode
  | [] => []
  | c :: rest =>
    if c.tag = .equal then
      Opcode.mk .equal (max c.i1 (c.i2 - n)) c.i2 (max c.j1 (c.j2 - n)) c.j2 :: rest
    else c :: rest

/-- Shrink a trailing `equal` opcode to at most `n` lines of context. -/
def fixLast (n : Nat) : List Opcode → List Opcode
  | [] => []
  | [c] =>
    if c.tag = .equal then
      [Opcode.mk .equal c.i1 (min c.i2 (c.i1 + n)) c.j1 (min c.j2 (c.j1 + n))]
    else [c]
  | c :: rest => c :: fixLast n rest

/-- The grouping loop of `get_grouped_opcodes`: split whenever an `equal`
opcode spans more than `2n` lines.  State: `(finished groups, current
group)`. -/
def groupLoop (n : Nat) : List (List Opcode) → List Opcode → List Opcode →
    List (List Opcode) × List Opcode
  | gs, g, [] => (gs, g)
  | gs, g, c :: rest =>
    if c.tag = .equal && 2 * n < c.i2 - c.i1 then
      groupLoop n
        (gs ++ [g ++ [Opcode.mk .equal c.i1 (min c.i2 (c.i1 + n)) c.j1 (min c.j2 (c.j1 + n))]])
        [Opcode.mk .equal (max c.i1 (c.i2 - n)) c.i2 (max c.j1 (c.j2 - n)) c.j2]
        rest
    else groupLoop n gs (g ++ [c]) rest

/-- `SequenceMatcher.get_grouped_opcodes(n)` (the generator, collected). -/
def get_grouped_opcodes (n : Nat) (a b : List (List Char)) : List (List Opcode) :=
  let codes0 := get_opcodes a b
  let codes1 := if codes0.isEmpty then [Opcode.mk .equal 0 1 0 1] else codes0
  let codes := fixLast n (fixFirst n codes1)
  let (gs, g) := groupLoop n [] [] codes
  if !g.isEmpty && !(g.length = 1 && (g.getD 0 (Opcode.mk .equal 0 0 0 0)).tag = .equal)
  then gs ++ [g] else gs

/-- Decimal digits of a natural number, as `str(n)` renders it.  The worker
recurses on fuel; `n + 1` steps always suffice. -/
def natDigitsGo : Nat → Nat → List Char
  | 0, _ => []
  | fuel + 1, n =>
    if n < 10 then [Char.ofNat (48 + n)]
    else natDigitsGo fuel (n / 10) ++ [Char.ofNat (48 + n % 10)]

/-- `str(n)` for a natural number. -/
def natToChars (n : Nat) : List Char :=
  natDigitsGo (n + 1) n

/-- `difflib._format_range_unified(start, stop)`. -/
def format_range_unified (start stop : Nat) : List Char :=
  let beginning := start + 1
  let length := stop - start
  if length = 1 then natToChars beginning
  else
    let beginning := if length = 0 then beginning - 1 else beginning
    natToChars beginning ++ [','] ++ natToChars length

/-- The `@@ -r1 +r2 @@` header of one group (with `lineterm=""`),
built from the first and last opcodes of the group. -/
def hunkHeader (g : List Opcode) : List Char :=
  ('@' :: '@' :: ' ' :: '-' :: format_range_unified
      (g.getD 0 (Opcode.mk .equal 0 0 0 0)).i1
      (g.getD (g.length - 1) (Opcode.mk .equal 0 0 0 0)).i2) ++
  (' ' :: '+' :: format_range_unified
      (g.getD 0 (Opcode.mk .equal 0 0 0 0)).j1
      (g.getD (g.length - 1) (Opcode.mk .equal 0 0 0 0)).j2) ++
  [' ', '@', '@']

/-- The body lines contributed by one opcode. -/
def opcodeLines (a b : List (List Char)) (c : Opcode) : List (List Char) :=
  if c.tag = .equal then (pySlice a c.i1 c.i2).map (fun l => ' ' :: l)
  else
    (if c.tag = .replace || c.tag = .delete
     then (pySlice a c.i1 c.i2).map (fun l => '-' :: l) else []) ++
    (if c.tag = .replace || c.tag = .insert
     then (pySlice b c.j1 c.j2).map (fun l => '+' :: l) else [])

/-- The lines contributed by one group: hunk header then opcode bodies. -/
def groupLines (a b : List (List Char)) (g : List Opcode) : List (List Char) :=
  hunkHeader g :: g.foldr (fun c acc => opcodeLines a b c ++ acc) []

/-- `list(difflib.unified_diff(a, b, fromfile="previous", tofile="current",
lineterm=""))`: the two file headers are emitted once, before the first
group, so they appear exactly when at least one group is produced. -/
def unified_diff (a b : List (List Char)) : List (List Char) :=
  let groups := get_grouped_opcodes 3 a b
  if groups.isEmpty then []
  else
    "--- previous".data :: "+++ current".data ::
      groups.foldr (fun g acc => groupLines a b g ++ acc) []

/-- Does a line start with `+` or `-`?  (`line.startswith("+") or
line.startswith("-")` in `generate_diff`.) -/
def plusMinusLine (l : List Char) : Bool :=
  match l with
  | '+' :: _ => true
  | '-' :: _ => true
  | _ => false

/-- `CodeAnalyzer.generate_diff` on character lists: returns
`(diff_text, changed_lines)`.  `None` arguments become empty text. -/
def generateDiffL (old_code new_code : Option (List Char)) : List Char × Nat :=
  let old := old_code.getD []
  let new := new_code.getD []
  let old_lines := pySplitlines old
  let new_lines := pySplitlines new
  let diff_list := unified_diff old_lines new_lines
  let changed_lines := diff_list.countP (fun l => plusMinusLine l)
  let diff_text := joinWith ['\n'] diff_list
  (diff_text, changed_lines)

/-- `CodeAnalyzer.generate_diff` on strings. -/
def generate_diff (old_code new_code : Option String) : String × Nat :=
  let r := generateDiffL (old_code.map String.data) (new_code.map String.data)
  (String.mk r.1, r.2)

/-! ### `CodeAnalyzer.save_to_filesystem` — written content

Only the written content and relative path are modelled (directory creation
and the actual file I/O are host effects carrying the content unchanged). -/

/-- The `CREATE OR REPLACE` prefix adjustment of `save_to_filesystem`:
for a known object type whose text lacks a `CREATE OR REPLACE <type>`
header, apply the same `re.sub` as the normalizer loop. -/
def fsPrefixAdjust (object_type source : List Char) : List Char :=
  if objTypes.contains object_type then
    if searchCORP object_type source then source else subPat object_type source
  else source

/-- The text `save_to_filesystem` writes, or `none` when `source_code` is
falsy (the function returns `None` without writing). -/
def saveContentL (object_type source_code : List Char) : Option (List Char) :=
  if source_code.isEmpty then none
  else some (fsPrefixAdjust object_type source_code)

/-- String-level wrapper for the written content. -/
def save_to_filesystem_content (object_type source_code : String) : Option String :=
  (saveContentL object_type.data source_code.data).map String.mk

/-- The path `save_to_filesystem` returns:
`<base>/<schema>/<TYPE_WITH_UNDERSCORES>/<name>.sql`. -/
def save_to_filesystem_path (base_dir schema object_name object_type : String) : String :=
  base_dir ++ "/" ++ schema ++ "/" ++
    String.mk (object_type.data.map (fun c => if c = ' ' then '_' else c.toUpper)) ++
    "/" ++ object_name ++ ".sql"

/-! ### `SQLiteStore` — the ledger

`object_state`, `object_changes` and `object_source` are explicit lists;
`AUTOINCREMENT` is a `nextId` counter.  Capture and change dates are `Nat`
day numbers (ISO date strings compare lexicographically exactly as day
numbers compare numerically), and `datetime.now()` is a `Nat` hour count
`nowHours` with `nowHours / 24` the current day. -/

/-- One `object_state` row. -/
structure StateRow where
  schema : String
  object_name : String
  object_type : String
  hash : String
  last_modified : String
  capture_date : Nat
  file_path : Option String
deriving DecidableEq, Repr

/-- One `object_changes` row. -/
structure ChangeRow where
  id : Nat
  schema : String
  object_name : String
  object_type : String
  change_date : Nat
  old_hash : Option String
  new_hash : String
  diff_summary : String
  changed_lines : Nat
  file_path : Option String
  notified : Bool
  git_commit_sha : Option String
deriving DecidableEq, Repr

/-- The persistent ledger: the three tables plus the autoincrement counter. -/
structure Ledger where
  object_state : List StateRow
  object_changes : List ChangeRow
  object_source : List (String × String)
  nextId : Nat
deriving DecidableEq, Repr

/-- The empty ledger (fresh database). -/
def emptyLedger : Ledger := ⟨[], [], [], 1⟩

/-- Do two state rows share the `object_state` primary key
`(schema, object_name, object_type, capture_date)`? -/
def samePK (r s : StateRow) : Bool :=
  r.schema = s.schema && r.object_name = s.object_name &&
  r.object_type = s.object_type && r.capture_date = s.capture_date

/-- `SQLiteStore.store_source_code`: skip falsy text; insert only when the
hash is not yet present (`SELECT 1 ... WHERE hash = ?`). -/
def store_source_code (code_hash source_code : String) (st : Ledger) : Ledger :=
  if source_code = "" then st
  else if (st.object_source.lookup code_hash).isSome then st
  else { st with object_source := st.object_source ++ [(code_hash, source_code)] }

/-- The result row shape of `SQLiteStore.get_previous_state`. -/
structure PrevState where
  hash : String
  capture_date : Nat
  last_modified : String
  file_path : Option String
  source_code : Option String
deriving DecidableEq, Repr

/-- `ORDER BY capture_date DESC LIMIT 1` over the matching rows: fold to
the row with the greatest capture date (strictly-greater updates, so ties
keep the earlier row; the primary key makes ties impossible for rows of one
identity). -/
def latestRow (rows : List StateRow) : Option StateRow :=
  rows.foldl
    (fun acc r =>
      match acc with
      | none => some r
      | some x => if x.capture_date < r.capture_date then some r else acc)
    none

/-- `SQLiteStore.get_previous_state`: the most recent state row for the
identity, joined with its stored source text. -/
def get_previous_state (schema object_name object_type : String) (st : Ledger) :
    Option PrevState :=
  match latestRow (st.object_state.filter
      (fun r => r.schema = schema && r.object_name = object_name &&
                r.object_type = object_type)) with
  | none => none
  | some r =>
    some ⟨r.hash, r.capture_date, r.last_modified, r.file_path,
          st.object_source.lookup r.hash⟩

/-- `SQLiteStore.store_object_state`: `INSERT OR REPLACE` keyed on the
primary key; the fresh row replaces any row with the same key. -/
def store_object_state (schema object_name object_type : String)
    (code_hash last_modified : String) (file_path : Option String)
    (today : Nat) (st : Ledger) : Ledger :=
  let row : StateRow := ⟨schema, object_name, object_type, code_hash,
                         last_modified, today, file_path⟩
  { st with object_state := row :: st.object_state.filter (fun r => !samePK r row) }

/-- `SQLiteStore.record_change`: insert a change row with `notified = 0`;
returns `cursor.lastrowid` and the new ledger. -/
def record_change (schema object_name object_type : String)
    (old_hash : Option String) (new_hash diff_summary : String)
    (changed_lines : Nat) (file_path : Option String) (today : Nat)
    (st : Ledger) : Nat × Ledger :=
  let row : ChangeRow := ⟨st.nextId, schema, object_name, object_type, today,
                          old_hash, new_hash, diff_summary, changed_lines,
                          file_path, false, none⟩
  (st.nextId, { st with object_changes := st.object_changes ++ [row],
                        nextId := st.nextId + 1 })

/-- `SQLiteStore.update_change_with_commit`: attach the commit SHA to one
change row (all other columns, `notified` included, are untouched). -/
def update_change_with_commit (change_id : Nat) (commit_sha : String)
    (st : Ledger) : Ledger :=
  let upd := fun (c : ChangeRow) =>
    if c.id = change_id then { c with git_commit_sha := some commit_sha } else c
  { st with object_changes := st.object_changes.map upd }

/-- `line.startswith("+") and not line.startswith("+++")`. -/
def plusMinusLinePlus (l : List Char) : Bool :=
  match l with
  | '+' :: '+' :: '+' :: _ => false
  | '+' :: _ => true
  | _ => false

/-- The truncated changed-content preview computed by
`SQLiteStore.get_unnotified_changes` (lines 273–288): the `+`-prefixed
lines of the diff summary except the `+++` header, capped at ten with an
ellipsis marker when more were present. -/
def storeChangedContent (diff_summary : String) : String :=
  let changed_lines_text := (pySplitlines diff_summary.data).filter
    (fun l => plusMinusLinePlus l)
  String.mk (joinWith ['\n'] (changed_lines_text.take 10)) ++
    (if 10 < changed_lines_text.length then "\n..." else "")

/-- The summary row shape returned by `get_unnotified_changes`. -/
structure ChangeSummary where
  id : Nat
  schema : String
  object_name : String
  object_type : String
  change_date : Nat
  changed_lines : Nat
  file_path : Option String
  git_commit_sha : Option String
  changed_content : String
deriving DecidableEq, Repr

/-- The date-granularity cutoff `(datetime.now() - timedelta(hours=hours))`
formatted as a date: the day number of the instant `hours` hours ago. -/
def cutoffDate (nowHours hours : Nat) : Nat :=
  (nowHours - hours) / 24

/-- `SQLiteStore.get_unnotified_changes(hours)`: the rows with
`notified = 0` and `change_date >= cutoff`, each with its derived preview.
(The SQL orders rows by schema/type/name; the selected set, which is what
the specification speaks about, is independent of that ordering, so the
embedding keeps table order.) -/
def get_unnotified_changes (hours nowHours : Nat) (st : Ledger) :
    List ChangeSummary :=
  (st.object_changes.filter
      (fun c => !c.notified && cutoffDate nowHours hours ≤ c.change_date)).map
    (fun c => ⟨c.id, c.schema, c.object_name, c.object_type, c.change_date,
               c.changed_lines, c.file_path, c.git_commit_sha,
               storeChangedContent c.diff_summary⟩)

/-- `SQLiteStore.mark_changes_as_notified`: set `notified = 1` on the rows
whose ids are listed (the source batches ids 100 at a time into one
`UPDATE ... WHERE id IN (...)` each; the net effect is identical). -/
def mark_changes_as_notified (change_ids : List Nat) (st : Ledger) : Ledger :=
  let upd := fun (c : ChangeRow) =>
    if change_ids.contains c.id then { c with notified := true } else c
  if change_ids.isEmpty then st
  else { st with object_changes := st.object_changes.map upd }

/-! ### `ChangeTracker._process_object` and `send_daily_summary`

The Oracle fetch is an external collaborator: its result is the
`raw_source : Option String` parameter (`none` = unavailable).  Failure of
a ledger write is injected through a `FailSpec`: a failing sqlite statement
raises before mutating anything, and the exception propagates out of
`_process_object` (there is no handler inside it), which the `Except`
result models.  Filesystem and git writes are external collaborators whose
results are the path values. -/

/-- The ledger writes of `_process_object` that can fail. -/
inductive StoreOp where
  | storeSource | recordChange | storeState
deriving DecidableEq, Repr

/-- Which ledger writes fail during one `_process_object` run. -/
def FailSpec := StoreOp → Bool

/-- The run in which every ledger write succeeds. -/
def noFail : FailSpec := fun _ => false

/-- `if not current_source:` — Python falsiness of the fetched source. -/
def rawEmpty : Option String → Bool
  | none => true
  | some s => s = ""

/-- The truncated changed-content preview computed by
`ChangeTracker._process_object` (lines 215–229): textually the same
derivation as the selector's, transcribed from its own source site. -/
def trackerChangedContent (diff_text : String) : String :=
  let changed_lines_text := (pySplitlines diff_text.data).filter
    (fun line => plusMinusLinePlus line)
  String.mk (joinWith ['\n'] (changed_lines_text.take 10)) ++
    (if 10 < changed_lines_text.length then "\n..." else "")

/-- The change dictionary `_process_object` returns when it records a
change (the fields the later phases consume). -/
structure ChangeInfo where
  id : Nat
  schema : String
  object_name : String
  object_type : String
  last_modified : String
  changed_lines : Nat
  changed_content : String
  file_path : Option String
  git_path : String
deriving DecidableEq, Repr

/-- The synthetic diff text for a new object:
`f"New object created on {self.today}"`. -/
def newObjectNote (today : Nat) : String :=
  "New object created on day " ++ String.mk (natToChars today)

/-- The relative path used by the git collaborator
(`GitManager.save_file`). -/
def gitSavePath (schema object_name object_type : String) : String :=
  schema ++ "/" ++
    String.mk (object_type.data.map (fun c => if c = ' ' then '_' else c.toUpper)) ++
    "/" ++ object_name ++ ".sql"

/-- Does `_process_object` classify the object as new or changed?  This is
the branch condition `not prev_state or prev_state["hash"] != current_hash`
evaluated on the ledger after the snapshot write. -/
def detectsChange (st : Ledger) (schema object_name object_type raw : String) : Bool :=
  let r := normalize_code (some raw)
  let current_hash := hash_code r.2
  let st1 := store_source_code current_hash r.1 st
  match get_previous_state schema object_name object_type st1 with
  | none => true
  | some prev => !(prev.hash = current_hash)

/-- `ChangeTracker._process_object`.  Returns the ledger as mutated so far
together with either the change result (`ok`) or the propagated write
error. -/
def process_object (fail : FailSpec) (base_dir : String)
    (schema object_name object_type last_modified : String)
    (raw_source : Option String) (today : Nat) (st : Ledger) :
    Ledger × Except String (Option ChangeInfo) :=
  if rawEmpty raw_source then (st, .ok none)
  else
    let current_source := raw_source.getD ""
    let r := normalize_code (some current_source)
    let clean_source := r.1
    let normalized_source := r.2
    let current_hash := hash_code normalized_source
    if fail .storeSource then (st, .error "store_source_code failed")
    else
      let st1 := store_source_code current_hash clean_source st
      let prev_state := get_previous_state schema object_name object_type st1
      let fs_path := (save_to_filesystem_content object_type clean_source).map
        (fun _ => save_to_filesystem_path base_dir schema object_name object_type)
      let git_path := gitSavePath schema object_name object_type
      let changed := match prev_state with
        | none => true
        | some prev => !(prev.hash = current_hash)
      if changed then
        let dcl : String × Nat × Option String :=
          match prev_state with
          | none =>
            (newObjectNote today, (pySplitlines clean_source.data).length, none)
          | some prev =>
            let old_source := prev.source_code
            let d := generate_diff old_source (some clean_source)
            (d.1, d.2, some prev.hash)
        let diff_text := dcl.1
        let changed_lines := dcl.2.1
        let old_hash := dcl.2.2
        if fail .recordChange then (st1, .error "record_change failed")
        else
          let rc := record_change schema object_name object_type old_hash
            current_hash diff_text changed_lines fs_path today st1
          let change_id := rc.1
          let st2 := rc.2
          let change : ChangeInfo :=
            ⟨change_id, schema, object_name, object_type, last_modified,
             changed_lines, trackerChangedContent diff_text, fs_path, git_path⟩
          if fail .storeState then (st2, .error "store_object_state failed")
          else
            (store_object_state schema object_name object_type current_hash
               last_modified fs_path today st2, .ok (some change))
      else
        if fail .storeState then (st1, .error "store_object_state failed")
        else
          (store_object_state schema object_name object_type current_hash
             last_modified fs_path today st1, .ok none)

/-- `ChangeTracker.send_daily_summary`: select the past 24 hours of
unnotified changes, hand them to the notifier (whose confirmed-delivery
outcome is the `delivered` parameter), and mark exactly the delivered
batch's ids on success. -/
def send_daily_summary (delivered : Bool) (nowHours : Nat) (st : Ledger) :
    Ledger × Bool :=
  let changes := get_unnotified_changes 24 nowHours st
  if delivered then
    (mark_changes_as_notified (changes.map (fun c => c.id)) st, true)
  else (st, false)

/-! ### `main.calculate_next_runtime` -/

/-- An instant: day number, hour of day, and the sub-hour part (minutes,
seconds and microseconds, abstracted as one `Nat` that is zero exactly for
whole hours, ordered as those fields order). -/
structure Instant where
  day : Nat
  hour : Nat
  sub : Nat
deriving DecidableEq, Repr

/-- Chronological strict order on instants. -/
def instLt (t u : Instant) : Bool :=
  t.day < u.day || (t.day = u.day &&
    (t.hour < u.hour || (t.hour = u.hour && t.sub < u.sub)))

/-- Chronological order on instants. -/
def instLe (t u : Instant) : Bool :=
  instLt t u || t = u

/-- `t + timedelta(hours=h)` for an instant with zero sub-hour part. -/
def addHours (t : Instant) (h : Nat) : Instant :=
  ⟨t.day + (t.hour + h) / 24, (t.hour + h) % 24, t.sub⟩

/-- `main.calculate_next_runtime(interval_hours)` at current time `now`. -/
def calculate_next_runtime (interval_hours : Nat) (now : Instant) : Instant :=
  let intervals_passed := now.hour / interval_hours
  let next_interval_hour := (intervals_passed + 1) * interval_hours
  let next_time :=
    if 24 ≤ next_interval_hour then
      -- replace(hour=0, minute=0, second=0, microsecond=0) + timedelta(days=1)
      ⟨now.day + 1, 0, 0⟩
    else Instant.mk now.day next_interval_hour 0
  if instLe next_time now then addHours next_time interval_hours else next_time

/-- Is `u` the start of an `interval_hours`-block of some day (hour a
multiple of the interval, at the top of the hour)? -/
def isBlockStart (interval_hours : Nat) (u : Instant) : Prop :=
  u.hour < 24 ∧ u.hour % interval_hours = 0 ∧ u.sub = 0

/-- Decidable equality for `Except` results (for concrete evaluation of
`process_object` outcomes). -/
instance {α β : Type} [DecidableEq α] [DecidableEq β] :
    DecidableEq (Except α β) := fun a b =>
  match a, b with
  | .ok x, .ok y =>
    if h : x = y then .isTrue (by rw [h]) else .isFalse (by simp [h])
  | .error x, .error y =>
    if h : x = y then .isTrue (by rw [h]) else .isFalse (by simp [h])
  | .ok _, .error _ => .isFalse (by simp)
  | .error _, .ok _ => .isFalse (by simp)

/-! ### Source skeletons — "differing only in comment content or whitespace"

To state the fingerprint-stability property one needs a formal notion of
two texts that differ only in comment content or whitespace.  A text is
presented as a rendered list of items — words, whitespace runs, block
comments and line comments — and two texts differ only in comment content
or whitespace when their item lists agree piecewise up to the contents of
whitespace and comment items.  Well-formedness pins the items to what the
words mean: words carry no whitespace and no comment delimiters, a block
comment's body does not close it early, a line comment runs to its line's
end. -/

/-- One item of a source skeleton. -/
inductive SrcItem where
  | word (s : List Char)
  | ws (s : List Char)
  | blockComment (s : List Char)
  | lineComment (s : List Char)
deriving DecidableEq, Repr

/-- Render one item: comments get their delimiters back. -/
def renderItem : SrcItem → List Char
  | .word s => s
  | .ws s => s
  | .blockComment s => '/' :: '*' :: (s ++ ['*', '/'])
  | .lineComment s => '-' :: '-' :: s

/-- Render a skeleton to its text. -/
def render : List SrcItem → List Char
  | [] => []
  | i :: rest => renderItem i ++ render rest

/-- String view of a rendered skeleton. -/
def renderStr (items : List SrcItem) : String :=
  String.mk (render items)

/-- `l` contains no adjacent pair `a, b`. -/
def noPairIn (a b : Char) : List Char → Bool
  | [] => true
  | [_] => true
  | c :: d :: rest => !(c = a && d = b) && noPairIn a b (d :: rest)

/-- Whitespace characters allowed inside skeleton whitespace runs (no
carriage return, so that CRLF normalization is the identity). -/
def wsChar (c : Char) : Bool :=
  c = ' ' || c = '\t' || c = '\n' || c.toNat = 11 || c.toNat = 12

/-- Well-formedness of one item.  A word is a nonempty run of
non-whitespace characters containing neither comment opener and not ending
in `-` (so that no comment delimiter forms across a boundary); a whitespace
run is a nonempty run of whitespace; a block comment body neither closes
itself early nor carries a CR; a line comment body stays on its line and
cannot open a block comment. -/
def wfItem : SrcItem → Bool
  | .word s => !s.isEmpty && s.all (fun c => !pyWs c) &&
      noPairIn '/' '*' s && noPairIn '-' '-' s && !(s.getLast? = some '-')
  | .ws s => !s.isEmpty && s.all wsChar
  | .blockComment s => noPairIn '*' '/' s && s.all (fun c => !(c = '\r'))
  | .lineComment s =>
      s.all (fun c => !(c = '\n') && !(c = '\r')) && noPairIn '/' '*' s

/-- Adjacency constraints: no two adjacent words (they would merge into
one), and a line comment is followed by a newline (or ends the text). -/
def wfSeq : List SrcItem → Bool
  | [] => true
  | [_] => true
  | i :: j :: rest =>
    (match i, j with
     | .word _, .word _ => false
     | .lineComment _, .ws s => s.head? = some '\n'
     | .lineComment _, _ => false
     | _, _ => true) && wfSeq (j :: rest)

/-- A well-formed skeleton. -/
def wfSkeleton (items : List SrcItem) : Bool :=
  items.all wfItem && wfSeq items

/-- Two skeletons differ only in comment content or whitespace: same item
shapes, identical words, arbitrary whitespace and comment contents. -/
def skelEquiv : List SrcItem → List SrcItem → Bool
  | [], [] => true
  | .word a :: r1, .word b :: r2 => a = b && skelEquiv r1 r2
  | .ws _ :: r1, .ws _ :: r2 => skelEquiv r1 r2
  | .blockComment _ :: r1, .blockComment _ :: r2 => skelEquiv r1 r2
  | .lineComment _ :: r1, .lineComment _ :: r2 => skelEquiv r1 r2
  | _, _ => false

/-- The words of a skeleton, in order. -/
def wordsOf : List SrcItem → List (List Char)
  | [] => []
  | .word s :: rest => s :: wordsOf rest
  | _ :: rest => wordsOf rest

/-- Replace block comments by a single-space whitespace run (the effect of
the block-comment substitution, at skeleton level). -/
def mapB : List SrcItem → List SrcItem
  | [] => []
  | .blockComment _ :: rest => .ws [' '] :: mapB rest
  | i :: rest => i :: mapB rest

/-- Replace line comments by a single-space whitespace run (the effect of
the line-comment substitution, at skeleton level). -/
def mapL : List SrcItem → List SrcItem
  | [] => []
  | .lineComment _ :: rest => .ws [' '] :: mapL rest
  | i :: rest => i :: mapL rest

/-- No block comments among the items. -/
def noBlockItems : List SrcItem → Bool
  | [] => true
  | .blockComment _ :: _ => false
  | _ :: rest => noBlockItems rest

/-- Only words and whitespace among the items. -/
def onlyWordWs : List SrcItem → Bool
  | [] => true
  | .word _ :: rest => onlyWordWs rest
  | .ws _ :: rest => onlyWordWs rest
  | _ => false

/-- Does the `CREATE OR REPLACE` injection of the `normalize_code` loop
stay quiet on this raw text?  Sufficient condition: no object-type pattern
matches either the comment-stripped text (first guard) or the clean text
(second guard). -/
def noInjectionFires (raw : List Char) : Bool :=
  let clean := pyCrlf raw
  let stripped := stripLineComments (stripBlockComments clean)
  objTypes.all (fun T => !searchPat T stripped && !searchPat T clean)

/-- A `+++`/`---` file-header line of a unified diff. -/
def isFileHeader (l : List Char) : Bool :=
  match l with
  | '+' :: '+' :: '+' :: _ => true
  | '-' :: '-' :: '-' :: _ => true
  | _ => false

/-- The changed-line count the specification describes: `+`/`-` lines of
the emitted diff, the `+++`/`---` file-header lines excluded. -/
def specChangedCount (diff_text : List Char) : Nat :=
  (pySplitlines diff_text).countP (fun l => plusMinusLine l && !isFileHeader l)

/-- The changed-line count the code computes, recovered from the emitted
diff text: every line starting with `+` or `-`, file headers included. -/
def textChangedCount (diff_text : List Char) : Nat :=
  (pySplitlines diff_text).countP (fun l => plusMinusLine l)

/-! ## Theorems

Scanner lemmas for the fingerprint-stability analysis (C1). -/

theorem pyCrlf_eq_self (l : List Char) (h : l.all (fun c => !(c = '\r')) = true) :
    pyCrlf l = l := by
  induction l with
  | nil => rfl
  | cons c rest ih =>
    cases rest with
    | nil => rfl
    | cons d rest2 =>
      simp only [List.all_cons, Bool.and_eq_true, Bool.not_eq_true'] at h
      obtain ⟨hc, hrest⟩ := h
      have : (c = '\r' && d = '\n') = false := by
        simp [decide_eq_true_eq] at hc ⊢
        intro hh; exact absurd hh hc
      simp only [pyCrlf, this, Bool.false_eq_true, if_false]
      congr 1
      exact ih (by simp [List.all_cons, hrest.1, hrest.2])

theorem noPairIn_cons (a b c : Char) (l : List Char)
    (hc : !(c = a && l.head? = some b) = true) (hl : noPairIn a b l = true) :
    noPairIn a b (c :: l) = true := by
  cases l with
  | nil => rfl
  | cons d rest =>
    simp only [noPairIn, Bool.and_eq_true]
    constructor
    · simp only [List.head?] at hc
      simpa using hc
    · exact hl

theorem sbAux_cons_false (c d : Char) (rest : List Char)
    (h : (c = '/' ∧ d = '*') → False) :
    sbAux false (c :: d :: rest) = c :: sbAux false (d :: rest) := by
  have hf : (c = '/' && d = '*') = false := by
    rcases Decidable.em (c = '/') with hc | hc
    · rcases Decidable.em (d = '*') with hd | hd
      · exact absurd ⟨hc, hd⟩ h
      · simp [hd]
    · simp [hc]
  simp [sbAux, hf]

theorem sb_copy (u l : List Char) (hu : noPairIn '/' '*' u = true)
    (hb : (u.getLast? = some '/' ∧ l.head? = some '*') → False) :
    sbAux false (u ++ l) = u ++ sbAux false l := by
  induction u with
  | nil => rfl
  | cons c u' ih =>
    cases u' with
    | nil =>
      cases l with
      | nil => simp [sbAux]
      | cons d l2 =>
        simp only [List.cons_append, List.nil_append]
        rw [sbAux_cons_false c d l2]
        intro hcd
        exact hb ⟨by simp [hcd.1], by simp [hcd.2]⟩
    | cons d u'' =>
      simp only [noPairIn, Bool.and_eq_true, Bool.not_eq_true',
        Bool.and_eq_false_iff, decide_eq_false_iff_not] at hu
      simp only [List.cons_append]
      rw [sbAux_cons_false c d (u'' ++ l)]
      · have := ih (by
          cases u'' with
          | nil => rfl
          | cons e u3 =>
            have h2 := hu.2
            simpa [noPairIn] using h2)
          (by intro hh; exact hb ⟨by simpa [List.getLast?_cons_cons] using hh.1, hh.2⟩)
        simp only [List.cons_append] at this
        rw [this]
      · intro hcd
        rcases hu.1 with h | h
        · exact h (by simp [hcd.1])
        · exact h (by simp [hcd.2])

theorem hasStarSlash_append (s l : List Char) :
    hasStarSlash (s ++ '*' :: '/' :: l) = true := by
  induction s with
  | nil => simp [hasStarSlash]
  | cons c s' ih =>
    cases s' with
    | nil =>
      rcases Decidable.em (c = '*') with hc | hc
      · simp [hasStarSlash, hc]
      · simpa [hasStarSlash, hc] using hasStarSlash_append [] l
    | cons d s'' =>
      rcases Decidable.em (c = '*') with hc | hc
      · rcases Decidable.em (d = '/') with hd | hd
        · simp [hasStarSlash, hc, hd]
        · simpa [hasStarSlash, hc, hd] using ih
      · simpa [hasStarSlash, hc] using ih

theorem sbAux_cons_true (c d : Char) (rest : List Char)
    (h : (c = '*' ∧ d = '/') → False) :
    sbAux true (c :: d :: rest) = sbAux true (d :: rest) := by
  have hf : (c = '*' && d = '/') = false := by
    rcases Decidable.em (c = '*') with hc | hc
    · rcases Decidable.em (d = '/') with hd | hd
      · exact absurd ⟨hc, hd⟩ h
      · simp [hd]
    · simp [hc]
  simp [sbAux, hf]

theorem sb_skip (s l : List Char) (hs : noPairIn '*' '/' s = true) :
    sbAux true (s ++ '*' :: '/' :: l) = sbAux false l := by
  induction s with
  | nil => simp [sbAux]
  | cons c s' ih =>
    cases s' with
    | nil =>
      simp only [List.cons_append, List.nil_append]
      rcases Decidable.em (c = '*') with hc | hc
      · rw [sbAux_cons_true c '*' ('/' :: l) (by intro h; exact absurd h.2 (by decide))]
        simp [sbAux]
      · rw [sbAux_cons_true c '*' ('/' :: l) (by intro h; exact hc h.1)]
        simp [sbAux]
    | cons d s'' =>
      simp only [noPairIn, Bool.and_eq_true, Bool.not_eq_true',
        Bool.and_eq_false_iff, decide_eq_false_iff_not] at hs
      simp only [List.cons_append]
      rw [sbAux_cons_true c d (s'' ++ '*' :: '/' :: l) (by
        intro h
        rcases hs.1 with h1 | h1
        · exact h1 h.1
        · exact h1 h.2)]
      have := ih (by
        cases s'' with
        | nil => rfl
        | cons e s3 => simpa [noPairIn] using hs.2)
      simpa using this

theorem sb_block (s l : List Char) (hs : noPairIn '*' '/' s = true) :
    sbAux false ('/' :: '*' :: (s ++ '*' :: '/' :: l)) = ' ' :: sbAux false l := by
  have hss := hasStarSlash_append s l
  simp [sbAux, hss, sb_skip s l hs]

theorem slAux_cons_false (c d : Char) (rest : List Char)
    (h : (c = '-' ∧ d = '-') → False) :
    slAux false (c :: d :: rest) = c :: slAux false (d :: rest) := by
  have hf : (c = '-' && d = '-') = false := by
    
    rcases Decidable.em (c = '-') with hc | hc
    · rcases Decidable.em (d = '-') with hd | hd
      · exact absurd ⟨hc, hd⟩ h
      · simp [hd]
    · simp [hc]
  simp [slAux, hf]

theorem sl_copy (u l : List Char) (hu : noPairIn '-' '-' u = true)
    (hb : (u.getLast? = some '-' ∧ l.head? = some '-') → False) :
    slAux false (u ++ l) = u ++ slAux false l := by
  induction u with
  | nil => rfl
  | cons c u' ih =>
    cases u' with
    | nil =>
      cases l with
      | nil => simp [slAux]
      | cons d l2 =>
        simp only [List.cons_append, List.nil_append]
        rw [slAux_cons_false c d l2]
        intro hcd
        exact hb ⟨by simp [hcd.1], by simp [hcd.2]⟩
    | cons d u'' =>
      simp only [noPairIn, Bool.and_eq_true, Bool.not_eq_true',
        Bool.and_eq_false_iff, decide_eq_false_iff_not] at hu
      simp only [List.cons_append]
      rw [slAux_cons_false c d (u'' ++ l)]
      · have := ih (by
          cases u'' with
          | nil => rfl
          | cons e u3 => simpa [noPairIn] using hu.2)
          (by intro hh; exact hb ⟨by simpa [List.getLast?_cons_cons] using hh.1, hh.2⟩)
        simp only [List.cons_append] at this
        rw [this]
      · intro hcd
        rcases hu.1 with h | h
        · exact h hcd.1
        · exact h hcd.2

theorem sl_skip (s l : List Char) (hs : s.all (fun c => !(c = '\n')) = true) :
    slAux true (s ++ l) = slAux true l := by
  induction s with
  | nil => rfl
  | cons c s' ih =>
    simp only [List.all_cons, Bool.and_eq_true, Bool.not_eq_true',
      decide_eq_false_iff_not] at hs
    simp only [List.cons_append, slAux]
    rw [if_neg (by simpa using hs.1)]
    exact ih (by simpa [List.all_eq_true] using hs.2)

theorem slAux_true_eq_false (l : List Char)
    (h : l = [] ∨ l.head? = some '\n') : slAux true l = slAux false l := by
  rcases h with h | h
  · subst h; rfl
  · cases l with
    | nil => rfl
    | cons c l' =>
      simp only [List.head?, Option.some_inj] at h
      subst h
      cases l' with
      | nil => simp [slAux]
      | cons d l'' =>
        rw [slAux_cons_false '\n' d l'' (by intro hh; exact absurd hh.1 (by decide))]
        simp [slAux]

theorem sl_line (s l : List Char) (hs : s.all (fun c => !(c = '\n')) = true)
    (hl : l = [] ∨ l.head? = some '\n') :
    slAux false ('-' :: '-' :: (s ++ l)) = ' ' :: slAux false l := by
  have : slAux false ('-' :: '-' :: (s ++ l)) = ' ' :: slAux true (s ++ l) := by
    simp [slAux]
  rw [this, sl_skip s l hs, slAux_true_eq_false l hl]

theorem noPairIn_of_no_first (a b : Char) (l : List Char)
    (h : ∀ c ∈ l, c ≠ a) : noPairIn a b l = true := by
  induction l with
  | nil => rfl
  | cons c l' ih =>
    cases l' with
    | nil => rfl
    | cons d l'' =>
      simp only [noPairIn, Bool.and_eq_true]
      refine ⟨?_, ih (fun x hx => h x (List.mem_cons_of_mem c hx))⟩
      have := h c (List.mem_cons_self c _)
      simp [this]

theorem noPairIn_cons_of_ne (a b c : Char) (l : List Char) (hc : c ≠ a)
    (hl : noPairIn a b l = true) : noPairIn a b (c :: l) = true := by
  cases l with
  | nil => rfl
  | cons d l' =>
    simp only [noPairIn, Bool.and_eq_true]
    exact ⟨by simp [hc], hl⟩

theorem getLast?_mem {α : Type} (l : List α) (x : α)
    (h : l.getLast? = some x) : x ∈ l := by
  induction l with
  | nil => simp at h
  | cons c l' ih =>
    cases l' with
    | nil =>
      simp only [List.getLast?_singleton, Option.some_inj] at h
      simp [h]
    | cons d l'' =>
      rw [List.getLast?_cons_cons] at h
      exact List.mem_cons_of_mem c (ih h)

theorem ps_skip_ws (s l : List Char) (hs : s.all pyWs = true) :
    psGo [] (s ++ l) = psGo [] l := by
  induction s with
  | nil => rfl
  | cons c s' ih =>
    simp only [List.all_cons, Bool.and_eq_true] at hs
    simp only [List.cons_append, psGo, hs.1, if_true, List.isEmpty_nil]
    exact ih (by simpa [List.all_eq_true] using hs.2)

theorem ps_in_word (s : List Char) (cur l : List Char)
    (hs : s.all (fun c => !pyWs c) = true) :
    psGo cur (s ++ l) = psGo (s.reverse ++ cur) l := by
  induction s generalizing cur with
  | nil => rfl
  | cons c s' ih =>
    simp only [List.all_cons, Bool.and_eq_true, Bool.not_eq_true'] at hs
    simp only [List.cons_append, psGo, hs.1, Bool.false_eq_true, if_false,
      List.append_eq]
    rw [ih (c :: cur) (by simpa [List.all_eq_true] using hs.2)]
    simp

theorem ps_word_then (s l : List Char) (hne : s ≠ [])
    (hs : s.all (fun c => !pyWs c) = true)
    (hl : l = [] ∨ ∃ c l', l = c :: l' ∧ pyWs c = true) :
    psGo [] (s ++ l) = s :: psGo [] l := by
  rw [ps_in_word s [] l hs, List.append_nil]
  have hrev : s.reverse.isEmpty = false := by
    cases s with
    | nil => exact absurd rfl hne
    | cons c s' => simp
  rcases hl with h | ⟨c, l', hl, hc⟩
  · subst h
    simp [psGo, hrev]
  · subst hl
    simp [psGo, hrev, hc]

theorem wfSeq_tail (i : SrcItem) (rest : List SrcItem)
    (h : wfSeq (i :: rest) = true) : wfSeq rest = true := by
  cases rest with
  | nil => rfl
  | cons j r =>
    simp only [wfSeq, Bool.and_eq_true] at h
    exact h.2

theorem wfSkeleton_parts (i : SrcItem) (rest : List SrcItem)
    (h : wfSkeleton (i :: rest) = true) :
    wfItem i = true ∧ wfSkeleton rest = true := by
  simp only [wfSkeleton, List.all_cons, Bool.and_eq_true] at h
  exact ⟨h.1.1, by
    simp only [wfSkeleton, Bool.and_eq_true]
    exact ⟨h.1.2, wfSeq_tail i rest h.2⟩⟩

theorem wfSeq_no_word_word (a b : List Char) (r : List SrcItem)
    (h : wfSeq (SrcItem.word a :: SrcItem.word b :: r) = true) : False := by
  simp [wfSeq] at h

theorem wfSeq_line_next (s : List Char) (j : SrcItem) (r : List SrcItem)
    (h : wfSeq (SrcItem.lineComment s :: j :: r) = true) :
    ∃ t, j = SrcItem.ws t ∧ t.head? = some '\n' := by
  cases j with
  | ws t =>
    simp only [wfSeq, Bool.and_eq_true, decide_eq_true_eq] at h
    exact ⟨t, rfl, h.1⟩
  | word t => simp [wfSeq] at h
  | blockComment t => simp [wfSeq] at h
  | lineComment t => simp [wfSeq] at h

theorem wsChar_ne_star (c : Char) (h : wsChar c = true) : c ≠ '*' := by
  intro he
  subst he
  exact absurd h (by decide)

theorem wsChar_ne_slash (c : Char) (h : wsChar c = true) : c ≠ '/' := by
  intro he
  subst he
  exact absurd h (by decide)

theorem wsChar_ne_dash (c : Char) (h : wsChar c = true) : c ≠ '-' := by
  intro he
  subst he
  exact absurd h (by decide)

theorem render_head_not_star (items : List SrcItem)
    (h : wfSkeleton items = true)
    (hnw : (match items.head? with
            | some (SrcItem.word _) => false
            | _ => true) = true) :
    (render items).head? ≠ some '*' := by
  cases items with
  | nil => simp [render]
  | cons i rest =>
    obtain ⟨hi, -⟩ := wfSkeleton_parts i rest h
    cases i with
    | word s => simp at hnw
    | ws s =>
      simp only [wfItem, Bool.and_eq_true] at hi
      cases s with
      | nil => simp at hi
      | cons c s' =>
        simp only [render, renderItem, List.cons_append, List.head?]
        intro he
        have hc : wsChar c = true := by
          have := hi.2
          simp only [List.all_cons, Bool.and_eq_true] at this
          exact this.1
        exact wsChar_ne_star c hc (by simpa using he)
    | blockComment s =>
      simp [render, renderItem]
    | lineComment s =>
      simp [render, renderItem]

theorem wfSkeleton_seq (items : List SrcItem) (h : wfSkeleton items = true) :
    wfSeq items = true := by
  simp only [wfSkeleton, Bool.and_eq_true] at h
  exact h.2

theorem stage_block (items : List SrcItem) (h : wfSkeleton items = true) :
    stripBlockComments (render items) = render (mapB items) := by
  induction items with
  | nil => rfl
  | cons i rest ih =>
    obtain ⟨hi, hrest⟩ := wfSkeleton_parts i rest h
    have hseq := wfSkeleton_seq _ h
    have ihr := ih hrest
    cases i with
    | word s =>
      simp only [wfItem, Bool.and_eq_true, Bool.not_eq_true',
        decide_eq_false_iff_not] at hi
      have hb : ((s.getLast? = some '/') ∧ ((render rest).head? = some '*')) → False := by
        rintro ⟨-, hhead⟩
        refine render_head_not_star rest hrest ?_ hhead
        cases rest with
        | nil => rfl
        | cons j r =>
          cases j with
          | word b => exact absurd hseq (by intro hh; exact wfSeq_no_word_word s b r hh)
          | ws t => rfl
          | blockComment t => rfl
          | lineComment t => rfl
      show sbAux false (s ++ render rest) = render (SrcItem.word s :: mapB rest)
      rw [sb_copy s (render rest) hi.1.1.2 hb]
      simp only [render, renderItem]
      rw [show sbAux false (render rest) = render (mapB rest) from ihr]
    | ws s =>
      simp only [wfItem, Bool.and_eq_true] at hi
      have hall : ∀ c ∈ s, wsChar c = true := by
        simpa [List.all_eq_true] using hi.2
      have hnp : noPairIn '/' '*' s = true :=
        noPairIn_of_no_first _ _ s (fun c hc => wsChar_ne_slash c (hall c hc))
      have hb : ((s.getLast? = some '/') ∧ ((render rest).head? = some '*')) → False := by
        rintro ⟨hlast, -⟩
        exact wsChar_ne_slash '/' (hall '/' (getLast?_mem s '/' hlast)) rfl
      show sbAux false (s ++ render rest) = render (SrcItem.ws s :: mapB rest)
      rw [sb_copy s (render rest) hnp hb]
      simp only [render, renderItem]
      rw [show sbAux false (render rest) = render (mapB rest) from ihr]
    | blockComment s =>
      simp only [wfItem, Bool.and_eq_true] at hi
      show sbAux false (('/' :: '*' :: (s ++ ['*', '/'])) ++ render rest) =
        render (SrcItem.ws [' '] :: mapB rest)
      have harr : ('/' :: '*' :: (s ++ ['*', '/'])) ++ render rest =
          '/' :: '*' :: (s ++ '*' :: '/' :: render rest) := by
        simp
      rw [harr, sb_block s (render rest) hi.1]
      simp only [render, renderItem, List.singleton_append]
      rw [show sbAux false (render rest) = render (mapB rest) from ihr]
    | lineComment s =>
      simp only [wfItem, Bool.and_eq_true] at hi
      have hnp : noPairIn '/' '*' ('-' :: '-' :: s) = true := by
        refine noPairIn_cons_of_ne _ _ _ _ (by decide) ?_
        exact noPairIn_cons_of_ne _ _ _ _ (by decide) hi.2
      have hb : ((('-' :: '-' :: s).getLast? = some '/') ∧
          ((render rest).head? = some '*')) → False := by
        rintro ⟨-, hhead⟩
        cases rest with
        | nil => simp [render] at hhead
        | cons j r =>
          obtain ⟨t, hjt, hht⟩ := wfSeq_line_next s j r hseq
          subst hjt
          cases t with
          | nil => simp at hht
          | cons c t' =>
            simp only [List.head?, Option.some_inj] at hht
            subst hht
            simp only [render, renderItem, List.cons_append, List.head?,
              Option.some_inj] at hhead
            exact absurd hhead (by decide)
      show sbAux false (('-' :: '-' :: s) ++ render rest) =
        render (SrcItem.lineComment s :: mapB rest)
      rw [sb_copy _ (render rest) hnp hb]
      simp only [render, renderItem, List.cons_append]
      rw [show sbAux false (render rest) = render (mapB rest) from ihr]

theorem mapB_cons (j : SrcItem) (r : List SrcItem) :
    mapB (j :: r) = (match j with
      | SrcItem.blockComment _ => SrcItem.ws [' ']
      | i => i) :: mapB r := by
  cases j <;> rfl

theorem mapL_cons (j : SrcItem) (r : List SrcItem) :
    mapL (j :: r) = (match j with
      | SrcItem.lineComment _ => SrcItem.ws [' ']
      | i => i) :: mapL r := by
  cases j <;> rfl

theorem wf_mapB_all (items : List SrcItem) (h : items.all wfItem = true) :
    (mapB items).all wfItem = true := by
  induction items with
  | nil => rfl
  | cons i rest ih =>
    simp only [List.all_cons, Bool.and_eq_true] at h
    cases i <;>
      simp only [mapB, List.all_cons, Bool.and_eq_true] <;>
      exact ⟨by first | exact h.1 | decide, ih h.2⟩

theorem wf_mapB_seq (items : List SrcItem) (h : wfSeq items = true) :
    wfSeq (mapB items) = true := by
  induction items with
  | nil => rfl
  | cons i rest ih =>
    cases rest with
    | nil => cases i <;> rfl
    | cons j r =>
      have ht := ih (wfSeq_tail i _ h)
      cases i <;> cases j <;>
        simp only [mapB, wfSeq, Bool.and_eq_true] at h ht ⊢ <;>
        first
          | exact ht
          | exact ⟨h.1, ht⟩
          | exact absurd h.1 (by simp)
          | exact ⟨by decide, ht⟩

theorem wf_mapB (items : List SrcItem) (h : wfSkeleton items = true) :
    wfSkeleton (mapB items) = true := by
  simp only [wfSkeleton, Bool.and_eq_true] at h ⊢
  exact ⟨wf_mapB_all items h.1, wf_mapB_seq items h.2⟩

theorem noBlock_mapB (items : List SrcItem) : noBlockItems (mapB items) = true := by
  induction items with
  | nil => rfl
  | cons i rest ih => cases i <;> simpa [mapB, noBlockItems] using ih

theorem stage_line (items : List SrcItem) (h : wfSkeleton items = true)
    (hnb : noBlockItems items = true) :
    stripLineComments (render items) = render (mapL items) := by
  induction items with
  | nil => rfl
  | cons i rest ih =>
    obtain ⟨hi, hrest⟩ := wfSkeleton_parts i rest h
    have hseq := wfSkeleton_seq _ h
    have hnbr : noBlockItems rest = true := by
      cases i <;> simpa [noBlockItems] using hnb
    have ihr := ih hrest hnbr
    cases i with
    | word s =>
      simp only [wfItem, Bool.and_eq_true, Bool.not_eq_true',
        decide_eq_false_iff_not] at hi
      have hb : ((s.getLast? = some '-') ∧ ((render rest).head? = some '-')) → False := by
        rintro ⟨hlast, -⟩
        exact hi.2 hlast
      show slAux false (s ++ render rest) = render (SrcItem.word s :: mapL rest)
      rw [sl_copy s (render rest) hi.1.2 hb]
      simp only [render, renderItem]
      rw [show slAux false (render rest) = render (mapL rest) from ihr]
    | ws s =>
      simp only [wfItem, Bool.and_eq_true] at hi
      have hall : ∀ c ∈ s, wsChar c = true := by
        simpa [List.all_eq_true] using hi.2
      have hnp : noPairIn '-' '-' s = true :=
        noPairIn_of_no_first _ _ s (fun c hc => wsChar_ne_dash c (hall c hc))
      have hb : ((s.getLast? = some '-') ∧ ((render rest).head? = some '-')) → False := by
        rintro ⟨hlast, -⟩
        exact wsChar_ne_dash '-' (hall '-' (getLast?_mem s '-' hlast)) rfl
      show slAux false (s ++ render rest) = render (SrcItem.ws s :: mapL rest)
      rw [sl_copy s (render rest) hnp hb]
      simp only [render, renderItem]
      rw [show slAux false (render rest) = render (mapL rest) from ihr]
    | blockComment s => simp [noBlockItems] at hnb
    | lineComment s =>
      simp only [wfItem, Bool.and_eq_true] at hi
      have hnl : s.all (fun c => !(c = '\n')) = true := by
        simp only [List.all_eq_true] at hi ⊢
        intro c hc
        have := hi.1 c hc
        simp only [Bool.and_eq_true] at this
        exact this.1
      have hl : render rest = [] ∨ (render rest).head? = some '\n' := by
        cases rest with
        | nil => left; rfl
        | cons j r =>
          obtain ⟨t, hjt, hht⟩ := wfSeq_line_next s j r hseq
          subst hjt
          cases t with
          | nil => simp at hht
          | cons c t' =>
            simp only [List.head?, Option.some_inj] at hht
            subst hht
            right
            simp [render, renderItem]
      show slAux false (('-' :: '-' :: s) ++ render rest) =
        render (SrcItem.ws [' '] :: mapL rest)
      have harr : ('-' :: '-' :: s) ++ render rest = '-' :: '-' :: (s ++ render rest) := by
        simp
      rw [harr, sl_line s (render rest) hnl hl]
      simp only [render, renderItem, List.singleton_append]
      rw [show slAux false (render rest) = render (mapL rest) from ihr]

theorem wf_mapL_all (items : List SrcItem) (h : items.all wfItem = true) :
    (mapL items).all wfItem = true := by
  induction items with
  | nil => rfl
  | cons i rest ih =>
    simp only [List.all_cons, Bool.and_eq_true] at h
    cases i <;>
      simp only [mapL, List.all_cons, Bool.and_eq_true] <;>
      exact ⟨by first | exact h.1 | decide, ih h.2⟩

theorem wf_mapL_seq (items : List SrcItem) (h : wfSeq items = true) :
    wfSeq (mapL items) = true := by
  induction items with
  | nil => rfl
  | cons i rest ih =>
    cases rest with
    | nil => cases i <;> rfl
    | cons j r =>
      have ht := ih (wfSeq_tail i _ h)
      cases i <;> cases j <;>
        simp only [mapL, wfSeq, Bool.and_eq_true] at h ht ⊢ <;>
        first
          | exact ht
          | exact ⟨h.1, ht⟩
          | exact ⟨by decide, ht⟩

theorem wf_mapL (items : List SrcItem) (h : wfSkeleton items = true) :
    wfSkeleton (mapL items) = true := by
  simp only [wfSkeleton, Bool.and_eq_true] at h ⊢
  exact ⟨wf_mapL_all items h.1, wf_mapL_seq items h.2⟩

theorem onlyWordWs_mapL (items : List SrcItem) (hnb : noBlockItems items = true) :
    onlyWordWs (mapL items) = true := by
  induction items with
  | nil => rfl
  | cons i rest ih =>
    cases i <;> simp only [mapL, onlyWordWs, noBlockItems] at hnb ⊢ <;>
      first
        | exact ih hnb
        | exact absurd hnb (by simp)

theorem wsChar_pyWs (c : Char) (h : wsChar c = true) : pyWs c = true := by
  simp only [wsChar, Bool.or_eq_true] at h
  simp only [pyWs, Bool.or_eq_true]
  tauto

theorem stage_split (items : List SrcItem) (h : wfSkeleton items = true)
    (how : onlyWordWs items = true) :
    pySplit (render items) = wordsOf items := by
  induction items with
  | nil => rfl
  | cons i rest ih =>
    obtain ⟨hi, hrest⟩ := wfSkeleton_parts i rest h
    have hseq := wfSkeleton_seq _ h
    cases i with
    | word s =>
      have howr : onlyWordWs rest = true := by simpa [onlyWordWs] using how
      simp only [wfItem, Bool.and_eq_true, Bool.not_eq_true',
        decide_eq_false_iff_not] at hi
      obtain ⟨⟨⟨⟨hne0, hallw⟩, -⟩, -⟩, -⟩ := hi
      have hne : s ≠ [] := by
        cases s with
        | nil => simp at hne0
        | cons c s' => exact fun hh => List.noConfusion hh
      have hl : render rest = [] ∨
          ∃ c l', render rest = c :: l' ∧ pyWs c = true := by
        cases rest with
        | nil => left; rfl
        | cons j r =>
          cases j with
          | word b => exact absurd hseq (by intro hh; exact wfSeq_no_word_word s b r hh)
          | ws t =>
            obtain ⟨hj, -⟩ := wfSkeleton_parts _ r hrest
            simp only [wfItem, Bool.and_eq_true] at hj
            cases t with
            | nil => simp at hj
            | cons c t' =>
              right
              refine ⟨c, t' ++ render r, by simp [render, renderItem], ?_⟩
              have hc : wsChar c = true := by
                have h2 := hj.2
                simp only [List.all_cons, Bool.and_eq_true] at h2
                exact h2.1
              exact wsChar_pyWs c hc
          | blockComment t => simp [onlyWordWs] at howr
          | lineComment t => simp [onlyWordWs] at howr
      show psGo [] (s ++ render rest) = s :: wordsOf rest
      rw [ps_word_then s (render rest) hne hallw hl]
      rw [show psGo [] (render rest) = wordsOf rest from ih hrest howr]
    | ws s =>
      have howr : onlyWordWs rest = true := by simpa [onlyWordWs] using how
      simp only [wfItem, Bool.and_eq_true] at hi
      have hall : s.all pyWs = true := by
        simp only [List.all_eq_true] at hi ⊢
        intro c hc
        exact wsChar_pyWs c (hi.2 c hc)
      show psGo [] (s ++ render rest) = wordsOf (SrcItem.ws s :: rest)
      rw [ps_skip_ws s (render rest) hall]
      exact ih hrest howr
    | blockComment s => simp [onlyWordWs] at how
    | lineComment s => simp [onlyWordWs] at how

theorem wordsOf_mapB (items : List SrcItem) : wordsOf (mapB items) = wordsOf items := by
  induction items with
  | nil => rfl
  | cons i rest ih => cases i <;> simpa [mapB, wordsOf] using ih

theorem wordsOf_mapL (items : List SrcItem) : wordsOf (mapL items) = wordsOf items := by
  induction items with
  | nil => rfl
  | cons i rest ih => cases i <;> simpa [mapL, wordsOf] using ih

theorem split_strip_render (items : List SrcItem) (h : wfSkeleton items = true) :
    pySplit (stripLineComments (stripBlockComments (render items))) = wordsOf items := by
  rw [stage_block items h]
  rw [stage_line (mapB items) (wf_mapB items h) (noBlock_mapB items)]
  rw [stage_split (mapL (mapB items)) (wf_mapL (mapB items) (wf_mapB items h))
    (onlyWordWs_mapL (mapB items) (noBlock_mapB items))]
  rw [wordsOf_mapL, wordsOf_mapB]

theorem render_noCR (items : List SrcItem) (h : wfSkeleton items = true) :
    (render items).all (fun c => !(c = '\r')) = true := by
  induction items with
  | nil => rfl
  | cons i rest ih =>
    obtain ⟨hi, hrest⟩ := wfSkeleton_parts i rest h
    have ihr := ih hrest
    show ((renderItem i ++ render rest).all fun c => !(c = '\r')) = true
    rw [List.all_append, Bool.and_eq_true]
    refine ⟨?_, ihr⟩
    cases i with
    | word s =>
      simp only [wfItem, Bool.and_eq_true] at hi
      simp only [renderItem, List.all_eq_true] at hi ⊢
      intro c hc
      have hcw := hi.1.1.1.2 c hc
      simp only [Bool.not_eq_true'] at hcw
      simp only [Bool.not_eq_true', decide_eq_false_iff_not]
      intro he
      subst he
      exact absurd hcw (by decide)
    | ws s =>
      simp only [wfItem, Bool.and_eq_true] at hi
      simp only [renderItem, List.all_eq_true] at hi ⊢
      intro c hc
      have := hi.2 c hc
      simp only [Bool.not_eq_true', decide_eq_false_iff_not]
      intro he
      subst he
      exact absurd this (by decide)
    | blockComment s =>
      simp only [wfItem, Bool.and_eq_true] at hi
      simp only [renderItem, List.all_cons, List.all_append, Bool.and_eq_true]
      refine ⟨by decide, by decide, hi.2, by decide⟩
    | lineComment s =>
      simp only [wfItem, Bool.and_eq_true] at hi
      simp only [renderItem, List.all_cons, Bool.and_eq_true]
      refine ⟨by decide, by decide, ?_⟩
      simp only [List.all_eq_true] at hi ⊢
      intro c hc
      have := hi.1 c hc
      simp only [Bool.and_eq_true, Bool.not_eq_true', decide_eq_false_iff_not] at this
      simp only [Bool.not_eq_true', decide_eq_false_iff_not]
      exact this.2

theorem wordsOf_equiv (s1 s2 : List SrcItem) (h : skelEquiv s1 s2 = true) :
    wordsOf s1 = wordsOf s2 := by
  induction s1 generalizing s2 with
  | nil =>
    cases s2 with
    | nil => rfl
    | cons j r => simp [skelEquiv] at h
  | cons i r1 ih =>
    cases s2 with
    | nil => cases i <;> simp [skelEquiv] at h
    | cons j r2 =>
      cases i <;> cases j <;> simp only [skelEquiv, Bool.and_eq_true,
        decide_eq_true_eq, Bool.false_eq_true] at h <;>
        first
          | (simp only [wordsOf]; rw [h.1]; rw [ih r2 h.2])
          | (simp only [wordsOf]; exact ih r2 h)

theorem objTypeLoop_id (Ts : List (List Char)) (n clean : List Char)
    (h : ∀ T ∈ Ts, searchPat T n = false ∧ searchPat T clean = false) :
    objTypeLoop Ts n clean = n := by
  induction Ts with
  | nil => rfl
  | cons T Ts' ih =>
    obtain ⟨h1, h2⟩ := h T (List.mem_cons_self T Ts')
    show objTypeLoop (T :: Ts') n clean = n
    simp only [objTypeLoop, h1, h2, Bool.false_and, Bool.false_eq_true, if_false]
    exact ih (fun T' hT' => h T' (List.mem_cons_of_mem T hT'))

theorem normalizeCodeL_canonical (raw : List Char) (hcr : pyCrlf raw = raw)
    (hnf : noInjectionFires raw = true) :
    (normalizeCodeL (some raw)).2 =
      dropTrailWs (qualStrip ((collapseWs
        (stripLineComments (stripBlockComments raw))).map Char.toUpper)) := by
  have hnf' : ∀ T ∈ objTypes,
      searchPat T (stripLineComments (stripBlockComments raw)) = false ∧
      searchPat T raw = false := by
    intro T hT
    simp only [noInjectionFires, hcr, List.all_eq_true] at hnf
    have := hnf T hT
    simp only [Bool.and_eq_true, Bool.not_eq_true'] at this
    exact this
  show (normalizeCodeL (some raw)).2 = _
  simp only [normalizeCodeL, hcr]
  rw [objTypeLoop_id objTypes _ raw hnf']

set_option maxRecDepth 100000

/-- C1 (counterexample): the two renderings `"x TYPE y"` and `"x\nTYPE y"`
differ only in whitespace (same skeleton up to a whitespace run), are
well-formed, and still fingerprint differently: in the second, `TYPE y`
starts a line, so the normalizer's `CREATE OR REPLACE` injection fires on
it alone and the canonical forms diverge. -/
theorem C1_counterexample :
    skelEquiv
      [SrcItem.word "x".data, SrcItem.ws " ".data, SrcItem.word "TYPE".data,
       SrcItem.ws " ".data, SrcItem.word "y".data]
      [SrcItem.word "x".data, SrcItem.ws "\n".data, SrcItem.word "TYPE".data,
       SrcItem.ws " ".data, SrcItem.word "y".data] = true ∧
    wfSkeleton
      [SrcItem.word "x".data, SrcItem.ws " ".data, SrcItem.word "TYPE".data,
       SrcItem.ws " ".data, SrcItem.word "y".data] = true ∧
    wfSkeleton
      [SrcItem.word "x".data, SrcItem.ws "\n".data, SrcItem.word "TYPE".data,
       SrcItem.ws " ".data, SrcItem.word "y".data] = true ∧
    hash_code (normalize_code (some (renderStr
      [SrcItem.word "x".data, SrcItem.ws " ".data, SrcItem.word "TYPE".data,
       SrcItem.ws " ".data, SrcItem.word "y".data]))).2 ≠
    hash_code (normalize_code (some (renderStr
      [SrcItem.word "x".data, SrcItem.ws "\n".data, SrcItem.word "TYPE".data,
       SrcItem.ws " ".data, SrcItem.word "y".data]))).2 := by
  refine ⟨by decide, by decide, by decide, by decide⟩

/-- C1 (amended): for all source texts differing only in comment content or
whitespace (same well-formed skeleton up to whitespace runs and comment
bodies), and on which the `CREATE OR REPLACE` prefix injection of
`normalize_code` does not fire (no object-type pattern matches the
comment-stripped or the clean text), the fingerprints agree:
`hash_code` of the canonical output of `normalize_code` is the same. -/
theorem C1_amended (s1 s2 : List SrcItem)
    (h1 : wfSkeleton s1 = true) (h2 : wfSkeleton s2 = true)
    (heq : skelEquiv s1 s2 = true)
    (hn1 : noInjectionFires (render s1) = true)
    (hn2 : noInjectionFires (render s2) = true) :
    hash_code (normalize_code (some (renderStr s1))).2 =
    hash_code (normalize_code (some (renderStr s2))).2 := by
  have hcr1 : pyCrlf (render s1) = render s1 := pyCrlf_eq_self _ (render_noCR s1 h1)
  have hcr2 : pyCrlf (render s2) = render s2 := pyCrlf_eq_self _ (render_noCR s2 h2)
  have c1 := normalizeCodeL_canonical (render s1) hcr1 hn1
  have c2 := normalizeCodeL_canonical (render s2) hcr2 hn2
  have hw : collapseWs (stripLineComments (stripBlockComments (render s1))) =
      collapseWs (stripLineComments (stripBlockComments (render s2))) := by
    show joinWith [' '] (pySplit (stripLineComments (stripBlockComments (render s1)))) =
      joinWith [' '] (pySplit (stripLineComments (stripBlockComments (render s2))))
    rw [split_strip_render s1 h1, split_strip_render s2 h2, wordsOf_equiv s1 s2 heq]
  have hnorm : (normalizeCodeL (some (render s1))).2 =
      (normalizeCodeL (some (render s2))).2 := by
    rw [c1, c2, hw]
  show hash_code (String.mk (normalizeCodeL (some (render s1))).2) =
    hash_code (String.mk (normalizeCodeL (some (render s2))).2)
  rw [hnorm]

/-- C1 (witness for the amended theorem): the reformat pair from the
specification's no-op-reformat scenario — `"select 1; -- note"` against
`"SELECT   1;"` as skeletons — is well-formed, equivalent, injection-free,
and fingerprints identically. -/
theorem C1_amended_witness :
    hash_code (normalize_code (some (renderStr
      [SrcItem.word "select".data, SrcItem.ws " ".data, SrcItem.word "1;".data,
       SrcItem.ws " ".data, SrcItem.lineComment " note".data]))).2 =
    hash_code (normalize_code (some (renderStr
      [SrcItem.word "select".data, SrcItem.ws "   ".data, SrcItem.word "1;".data,
       SrcItem.ws "  ".data, SrcItem.lineComment " other".data]))).2 :=
  C1_amended
    [SrcItem.word "select".data, SrcItem.ws " ".data, SrcItem.word "1;".data,
     SrcItem.ws " ".data, SrcItem.lineComment " note".data]
    [SrcItem.word "select".data, SrcItem.ws "   ".data, SrcItem.word "1;".data,
     SrcItem.ws "  ".data, SrcItem.lineComment " other".data]
    (by decide) (by decide) (by decide) (by decide) (by decide)

theorem pslGo_cons_nb (c : Char) (cur z : List Char)
    (hc : pyLineBoundary c = false) :
    pslGo cur (c :: z) = pslGo (c :: cur) z := by
  have hcr : ¬(c = '\r') := by
    intro he
    subst he
    exact absurd hc (by decide)
  cases z with
  | nil => simp [pslGo, hc]
  | cons d t => simp [pslGo, hc, hcr]

theorem pslGo_newline (cur J : List Char) :
    pslGo cur ('\n' :: J) = cur.reverse :: pslGo [] J := by
  have hb : pyLineBoundary '\n' = true := by decide
  have hr : ('\n' = '\r') = False := by simp
  cases J with
  | nil => simp [pslGo, hb]
  | cons d t => simp [pslGo, hb, hr]

theorem psl_in_line (l : List Char) (cur rest : List Char)
    (h : ∀ c ∈ l, pyLineBoundary c = false) :
    pslGo cur (l ++ rest) = pslGo (l.reverse ++ cur) rest := by
  induction l generalizing cur with
  | nil => rfl
  | cons c l' ih =>
    have hc : pyLineBoundary c = false := h c (List.mem_cons_self c l')
    have hl' : ∀ x ∈ l', pyLineBoundary x = false :=
      fun x hx => h x (List.mem_cons_of_mem c hx)
    calc pslGo cur ((c :: l') ++ rest)
        = pslGo cur (c :: (l' ++ rest)) := by simp
      _ = pslGo (c :: cur) (l' ++ rest) := pslGo_cons_nb c cur (l' ++ rest) hc
      _ = pslGo (l'.reverse ++ (c :: cur)) rest := ih (c :: cur) hl'
      _ = pslGo ((c :: l').reverse ++ cur) rest := by simp

theorem pySplitlines_joinWith (L : List (List Char))
    (h : ∀ l ∈ L, l ≠ [] ∧ ∀ c ∈ l, pyLineBoundary c = false) :
    pySplitlines (joinWith ['\n'] L) = L := by
  induction L with
  | nil => rfl
  | cons w L' ih =>
    obtain ⟨hw, hwb⟩ := h w (List.mem_cons_self w L')
    cases L' with
    | nil =>
      show pslGo [] w = [w]
      have h1 := psl_in_line w [] [] hwb
      simp only [List.append_nil] at h1
      rw [h1]
      simp only [pslGo]
      rw [if_neg]
      · simp
      · simp only [List.isEmpty_eq_true, List.reverse_eq_nil_iff]
        exact hw
    | cons v L'' =>
      show pslGo [] ((w ++ ['\n']) ++ joinWith ['\n'] (v :: L'')) = w :: v :: L''
      rw [List.append_assoc]
      rw [show ['\n'] ++ joinWith ['\n'] (v :: L'') =
        '\n' :: joinWith ['\n'] (v :: L'') from rfl]
      rw [psl_in_line w [] _ hwb, pslGo_newline]
      simp only [List.append_nil, List.reverse_reverse]
      rw [show pslGo [] (joinWith ['\n'] (v :: L'')) =
        pySplitlines (joinWith ['\n'] (v :: L'')) from rfl]
      rw [ih (fun l hl => h l (List.mem_cons_of_mem w hl))]

theorem foldr_append_mem {α β : Type} (f : α → List β) (L : List α) (x : β) :
    x ∈ L.foldr (fun g acc => f g ++ acc) [] ↔ ∃ g ∈ L, x ∈ f g := by
  induction L with
  | nil => simp
  | cons g L' ih =>
    simp only [List.foldr_cons, List.mem_append, ih, List.mem_cons]
    constructor
    · rintro (hx | ⟨g', hg', hx⟩)
      · exact ⟨g, Or.inl rfl, hx⟩
      · exact ⟨g', Or.inr hg', hx⟩
    · rintro ⟨g', hg' | hg', hx⟩
      · subst hg'; exact Or.inl hx
      · exact Or.inr ⟨g', hg', hx⟩

theorem pslGo_no_boundary (cur xs : List Char) :
    (∀ c ∈ cur, pyLineBoundary c = false) →
    ∀ l ∈ pslGo cur xs, ∀ c ∈ l, pyLineBoundary c = false := by
  induction cur, xs using pslGo.induct with
  | case1 cur hc =>
    intro hcur l hl
    simp [pslGo, hc] at hl
  | case2 cur hc =>
    intro hcur l hl
    simp only [pslGo, hc, if_false] at hl
    rcases List.mem_singleton.mp hl with hl
    subst hl
    intro c hcm
    exact hcur c (List.mem_reverse.mp hcm)
  | case3 cur c hb =>
    intro hcur l hl
    simp only [pslGo, hb, if_true] at hl
    rcases List.mem_singleton.mp hl with hl
    subst hl
    intro x hx
    exact hcur x (List.mem_reverse.mp hx)
  | case4 cur c hb =>
    intro hcur l hl
    simp only [pslGo, hb, Bool.false_eq_true, if_false] at hl
    rcases List.mem_singleton.mp hl with hl
    subst hl
    intro x hx
    rcases List.mem_reverse.mp hx with hx2
    rcases List.mem_cons.mp hx2 with hx3 | hx3
    · subst hx3
      simpa using hb
    · exact hcur x hx3
  | case5 cur c d rest hcd ih =>
    intro hcur l hl
    rw [show pslGo cur (c :: d :: rest) = cur.reverse :: pslGo [] rest by
      simp [pslGo, hcd]] at hl
    rcases List.mem_cons.mp hl with hl | hl
    · subst hl
      intro x hx
      exact hcur x (List.mem_reverse.mp hx)
    · exact ih (by simp) l hl
  | case6 cur c d rest hcd hb ih =>
    intro hcur l hl
    rw [show pslGo cur (c :: d :: rest) = cur.reverse :: pslGo [] (d :: rest) by
      simp [pslGo, hcd, hb]] at hl
    rcases List.mem_cons.mp hl with hl | hl
    · subst hl
      intro x hx
      exact hcur x (List.mem_reverse.mp hx)
    · exact ih (by simp) l hl
  | case7 cur c d rest hcd hb ih =>
    intro hcur l hl
    rw [show pslGo cur (c :: d :: rest) = pslGo (c :: cur) (d :: rest) by
      simp [pslGo, hcd, hb]] at hl
    refine ih ?_ l hl
    intro x hx
    rcases List.mem_cons.mp hx with hx | hx
    · subst hx
      simpa using hb
    · exact hcur x hx

theorem pySplitlines_no_boundary (xs : List Char) :
    ∀ l ∈ pySplitlines xs, ∀ c ∈ l, pyLineBoundary c = false :=
  pslGo_no_boundary [] xs (by simp)

theorem digit_no_boundary (k : Nat) (hk : k < 10) :
    pyLineBoundary (Char.ofNat (48 + k)) = false := by
  interval_cases k <;> decide

theorem natDigitsGo_no_boundary (fuel n : Nat) :
    ∀ c ∈ natDigitsGo fuel n, pyLineBoundary c = false := by
  induction fuel generalizing n with
  | zero => intro c hc; simp [natDigitsGo] at hc
  | succ fuel ih =>
    intro c hc
    simp only [natDigitsGo] at hc
    split at hc
    · next h =>
      rcases List.mem_singleton.mp hc with hc
      subst hc
      exact digit_no_boundary n h
    · rcases List.mem_append.mp hc with hc | hc
      · exact ih (n / 10) c hc
      · rcases List.mem_singleton.mp hc with hc
        subst hc
        exact digit_no_boundary (n % 10) (Nat.mod_lt n (by decide))

theorem format_range_no_boundary (start stop : Nat) :
    ∀ c ∈ format_range_unified start stop, pyLineBoundary c = false := by
  intro c hc
  simp only [format_range_unified] at hc
  split at hc
  · exact natDigitsGo_no_boundary _ _ c hc
  · rcases List.mem_append.mp hc with hc | hc
    · rcases List.mem_append.mp hc with hc | hc
      · exact natDigitsGo_no_boundary _ _ c hc
      · rcases List.mem_singleton.mp hc with hc
        subst hc
        decide
    · exact natDigitsGo_no_boundary _ _ c hc

theorem hunkHeader_prop (g : List Opcode) :
    hunkHeader g ≠ [] ∧ ∀ c ∈ hunkHeader g, pyLineBoundary c = false := by
  refine ⟨by simp [hunkHeader], ?_⟩
  intro c hc
  rcases List.mem_append.mp hc with h | h
  · rcases List.mem_append.mp h with h | h
    · rcases List.mem_cons.mp h with rfl | h
      · decide
      rcases List.mem_cons.mp h with rfl | h
      · decide
      rcases List.mem_cons.mp h with rfl | h
      · decide
      rcases List.mem_cons.mp h with rfl | h
      · decide
      exact format_range_no_boundary _ _ c h
    · rcases List.mem_cons.mp h with rfl | h
      · decide
      rcases List.mem_cons.mp h with rfl | h
      · decide
      exact format_range_no_boundary _ _ c h
  · rcases List.mem_cons.mp h with rfl | h
    · decide
    rcases List.mem_cons.mp h with rfl | h
    · decide
    rcases List.mem_cons.mp h with rfl | h
    · decide
    simp at h

theorem pySlice_subset (l : List (List Char)) (i j : Nat) (x : List Char)
    (hx : x ∈ pySlice l i j) : x ∈ l := by
  have h1 : x ∈ l.take j := List.Sublist.subset (List.drop_sublist i (l.take j)) hx
  exact List.Sublist.subset (List.take_sublist j l) h1

theorem opcodeLines_prop (a b : List (List Char))
    (ha : ∀ l ∈ a, ∀ c ∈ l, pyLineBoundary c = false)
    (hb : ∀ l ∈ b, ∀ c ∈ l, pyLineBoundary c = false) (op : Opcode) :
    ∀ line ∈ opcodeLines a b op,
      line ≠ [] ∧ ∀ c ∈ line, pyLineBoundary c = false := by
  intro line hline
  have hmk : ∀ (p : Char) (src : List (List Char)),
      (∀ l ∈ src, ∀ c ∈ l, pyLineBoundary c = false) →
      pyLineBoundary p = false → ∀ i j,
      line ∈ (pySlice src i j).map (fun l => p :: l) →
      line ≠ [] ∧ ∀ c ∈ line, pyLineBoundary c = false := by
    intro p src hsrc hp i j hm
    rcases List.mem_map.mp hm with ⟨l, hl, hpl⟩
    subst hpl
    refine ⟨by simp, ?_⟩
    intro c hc
    rcases List.mem_cons.mp hc with hc | hc
    · subst hc; exact hp
    · exact hsrc l (pySlice_subset src i j l hl) c hc
  simp only [opcodeLines] at hline
  split at hline
  · exact hmk ' ' a ha (by decide) op.i1 op.i2 hline
  · rcases List.mem_append.mp hline with h | h
    · split at h
      · exact hmk '-' a ha (by decide) op.i1 op.i2 h
      · simp at h
    · split at h
      · exact hmk '+' b hb (by decide) op.j1 op.j2 h
      · simp at h

theorem unified_diff_lines_prop (olds news : List Char) :
    ∀ l ∈ unified_diff (pySplitlines olds) (pySplitlines news),
      l ≠ [] ∧ ∀ c ∈ l, pyLineBoundary c = false := by
  intro l hl
  have ha := pySplitlines_no_boundary olds
  have hb := pySplitlines_no_boundary news
  simp only [unified_diff] at hl
  split at hl
  · simp at hl
  · rcases List.mem_cons.mp hl with h | h
    · subst h
      refine ⟨by simp, by decide⟩
    · rcases List.mem_cons.mp h with h | h
      · subst h
        refine ⟨by simp, by decide⟩
      · rcases (foldr_append_mem _ _ l).mp h with ⟨g, -, hg⟩
        simp only [groupLines] at hg
        rcases List.mem_cons.mp hg with h2 | h2
        · subst h2
          exact hunkHeader_prop g
        · rcases (foldr_append_mem _ _ l).mp h2 with ⟨op, -, hop⟩
          exact opcodeLines_prop _ _ ha hb op l hop

/-- C2 (counterexample): for `old = "a\nb\n"`, `new = "a\nc\n"` the code
returns `changed_line_count = 4` (the `---`/`+++` file headers are counted
by `line.startswith("+") or line.startswith("-")`), while the count that
excludes the file headers — the one the claim describes — is 2. -/
theorem C2_counterexample :
    (generate_diff (some "a\nb\n") (some "a\nc\n")).2 = 4 ∧
    specChangedCount (generate_diff (some "a\nb\n") (some "a\nc\n")).1.data = 2 ∧
    (generate_diff (some "a\nb\n") (some "a\nc\n")).2 ≠
      specChangedCount (generate_diff (some "a\nb\n") (some "a\nc\n")).1.data := by
  refine ⟨by decide, by decide, by decide⟩

/-- C2 (amended): for every pair of texts, `generate_diff` returns
`changed_line_count` equal to the number of emitted diff lines starting
with `+` or `-` **including** the `+++`/`---` file-header lines: splitting
the returned diff text back into lines and counting every `+`/`-` line
reproduces the returned count (so for `"a\nb\n"` vs `"a\nc\n"` it is 4,
not 2). -/
theorem C2_amended (old_code new_code : Option String) :
    (generate_diff old_code new_code).2 =
      textChangedCount (generate_diff old_code new_code).1.data := by
  show (generateDiffL (old_code.map String.data) (new_code.map String.data)).2 =
    textChangedCount (String.mk (generateDiffL (old_code.map String.data)
      (new_code.map String.data)).1).data
  simp only [generateDiffL, textChangedCount]
  rw [pySplitlines_joinWith _ (fun l hl =>
    unified_diff_lines_prop ((old_code.map String.data).getD [])
      ((new_code.map String.data).getD []) l hl)]

/-! ### Ledger projection lemmas and the `_process_object` outcome analysis -/

theorem store_source_code_state (h s : String) (st : Ledger) :
    (store_source_code h s st).object_state = st.object_state := by
  unfold store_source_code
  split <;> [rfl; split <;> rfl]

theorem store_source_code_changes (h s : String) (st : Ledger) :
    (store_source_code h s st).object_changes = st.object_changes := by
  unfold store_source_code
  split <;> [rfl; split <;> rfl]

theorem record_change_state (schema object_name object_type : String)
    (old_hash : Option String) (new_hash diff_summary : String)
    (changed_lines : Nat) (file_path : Option String) (today : Nat) (st : Ledger) :
    (record_change schema object_name object_type old_hash new_hash diff_summary
      changed_lines file_path today st).2.object_state = st.object_state := rfl

theorem record_change_changes (schema object_name object_type : String)
    (old_hash : Option String) (new_hash diff_summary : String)
    (changed_lines : Nat) (file_path : Option String) (today : Nat) (st : Ledger) :
    (record_change schema object_name object_type old_hash new_hash diff_summary
      changed_lines file_path today st).2.object_changes =
      st.object_changes ++ [⟨st.nextId, schema, object_name, object_type, today,
        old_hash, new_hash, diff_summary, changed_lines, file_path,
        false, none⟩] := rfl

theorem store_object_state_changes (schema object_name object_type : String)
    (code_hash last_modified : String) (file_path : Option String)
    (today : Nat) (st : Ledger) :
    (store_object_state schema object_name object_type code_hash last_modified
      file_path today st).object_changes = st.object_changes := rfl

/-- C3 (counterexample): a run in which `record_change` commits and the
subsequent `store_object_state` raises.  Starting from a ledger whose
current baseline for `S.OBJ` has hash `"zz"`, processing a changed source
with `store_object_state` failing leaves exactly one ChangeRecord persisted
while the ObjectState rows are untouched (the baseline hash still differs
from the recorded new hash), and the error propagates — the two writes are
two separate transactions, not one atomic unit. -/
theorem C3_counterexample :
    (process_object (fun op => op = StoreOp.storeState) "base" "S" "OBJ" "VIEW"
        "2024" (some "x") 10
        ⟨[⟨"S", "OBJ", "VIEW", "zz", "2023", 5, none⟩], [], [], 1⟩).1.object_changes.length = 1 ∧
    (process_object (fun op => op = StoreOp.storeState) "base" "S" "OBJ" "VIEW"
        "2024" (some "x") 10
        ⟨[⟨"S", "OBJ", "VIEW", "zz", "2023", 5, none⟩], [], [], 1⟩).1.object_state =
      [⟨"S", "OBJ", "VIEW", "zz", "2023", 5, none⟩] ∧
    (∀ c ∈ (process_object (fun op => op = StoreOp.storeState) "base" "S" "OBJ" "VIEW"
        "2024" (some "x") 10
        ⟨[⟨"S", "OBJ", "VIEW", "zz", "2023", 5, none⟩], [], [], 1⟩).1.object_changes,
      ∀ s ∈ (process_object (fun op => op = StoreOp.storeState) "base" "S" "OBJ" "VIEW"
        "2024" (some "x") 10
        ⟨[⟨"S", "OBJ", "VIEW", "zz", "2023", 5, none⟩], [], [], 1⟩).1.object_state,
        c.new_hash ≠ s.hash) ∧
    (process_object (fun op => op = StoreOp.storeState) "base" "S" "OBJ" "VIEW"
        "2024" (some "x") 10
        ⟨[⟨"S", "OBJ", "VIEW", "zz", "2023", 5, none⟩], [], [], 1⟩).2 =
      Except.error "store_object_state failed" := by
  refine ⟨by decide, by decide, by decide, by decide⟩

/-- C3 (amended): `_process_object` runs `record_change` and
`store_object_state` as two separate transactions in that order, and a
ledger write failure aborts the object's processing with a propagated
error (never silently dropped).  Exhaustively: on empty source nothing
happens; a `store_source_code` failure leaves the ledger untouched; a
`record_change` failure leaves both the change table and the state table
untouched (neither persisted); a `store_object_state` failure after a
successful `record_change` leaves the new ChangeRecord persisted while the
ObjectState baseline is not advanced (both persisted only on full
success) — so creation and refresh are not atomic, but every failure
surfaces as an error and the baseline is only ever advanced at the final
step. -/
theorem C3_amended (fail : FailSpec)
    (base_dir schema object_name object_type last_modified : String)
    (raw_source : Option String) (today : Nat) (st st' : Ledger)
    (r2 : Except String (Option ChangeInfo))
    (heq : process_object fail base_dir schema object_name object_type
      last_modified raw_source today st = (st', r2)) :
    (rawEmpty raw_source = true ∧ st' = st ∧ r2 = .ok none) ∨
    (rawEmpty raw_source = false ∧ fail .storeSource = true ∧ st' = st ∧
      r2 = .error "store_source_code failed") ∨
    (rawEmpty raw_source = false ∧ fail .storeSource = false ∧
      detectsChange st schema object_name object_type (raw_source.getD "") = true ∧
      fail .recordChange = true ∧
      st'.object_state = st.object_state ∧ st'.object_changes = st.object_changes ∧
      r2 = .error "record_change failed") ∨
    (rawEmpty raw_source = false ∧ fail .storeSource = false ∧
      detectsChange st schema object_name object_type (raw_source.getD "") = true ∧
      fail .recordChange = false ∧ fail .storeState = true ∧
      st'.object_state = st.object_state ∧
      st'.object_changes.length = st.object_changes.length + 1 ∧
      r2 = .error "store_object_state failed") ∨
    (rawEmpty raw_source = false ∧ fail .storeSource = false ∧
      detectsChange st schema object_name object_type (raw_source.getD "") = true ∧
      fail .recordChange = false ∧ fail .storeState = false ∧
      st'.object_changes.length = st.object_changes.length + 1 ∧
      ∃ c, r2 = .ok (some c)) ∨
    (rawEmpty raw_source = false ∧ fail .storeSource = false ∧
      detectsChange st schema object_name object_type (raw_source.getD "") = false ∧
      fail .storeState = true ∧ st'.object_state = st.object_state ∧
      st'.object_changes = st.object_changes ∧
      r2 = .error "store_object_state failed") ∨
    (rawEmpty raw_source = false ∧ fail .storeSource = false ∧
      detectsChange st schema object_name object_type (raw_source.getD "") = false ∧
      fail .storeState = false ∧ st'.object_changes = st.object_changes ∧
      r2 = .ok none) := by
  by_cases h0 : rawEmpty raw_source = true
  · left
    refine ⟨h0, ?_⟩
    simp only [process_object, h0, if_true] at heq
    exact ⟨(Prod.mk.injEq _ _ _ _ ▸ heq).1.symm, (Prod.mk.injEq _ _ _ _ ▸ heq).2.symm⟩
  · have h0' : rawEmpty raw_source = false := by simpa using h0
    by_cases h1 : fail .storeSource = true
    · right; left
      refine ⟨h0', h1, ?_⟩
      simp only [process_object, h0', h1, Bool.false_eq_true, if_false, if_true] at heq
      exact ⟨(Prod.mk.injEq _ _ _ _ ▸ heq).1.symm, (Prod.mk.injEq _ _ _ _ ▸ heq).2.symm⟩
    · have h1' : fail .storeSource = false := by simpa using h1
      by_cases hd : detectsChange st schema object_name object_type (raw_source.getD "") = true
      · have hd' := hd
        unfold detectsChange at hd'
        by_cases h2 : fail .recordChange = true
        · right; right; left
          refine ⟨h0', h1', hd, h2, ?_⟩
          simp only [process_object, h0', h1', Bool.false_eq_true, if_false, hd',
            h2, if_true] at heq
          obtain ⟨he1, he2⟩ := Prod.mk.injEq _ _ _ _ ▸ heq
          subst he1
          exact ⟨(store_source_code_state _ _ _).symm ▸ rfl,
            (store_source_code_changes _ _ _).symm ▸ rfl, he2.symm⟩
        · have h2' : fail .recordChange = false := by simpa using h2
          by_cases h3 : fail .storeState = true
          · right; right; right; left
            refine ⟨h0', h1', hd, h2', h3, ?_⟩
            simp only [process_object, h0', h1', h2', Bool.false_eq_true, if_false,
              hd', h3, if_true] at heq
            obtain ⟨he1, he2⟩ := Prod.mk.injEq _ _ _ _ ▸ heq
            subst he1
            refine ⟨?_, ?_, he2.symm⟩
            · rw [record_change_state, store_source_code_state]
            · rw [record_change_changes, store_source_code_changes]
              simp
          · have h3' : fail .storeState = false := by simpa using h3
            right; right; right; right; left
            refine ⟨h0', h1', hd, h2', h3', ?_⟩
            simp only [process_object, h0', h1', h2', h3', Bool.false_eq_true,
              if_false, hd', if_true] at heq
            obtain ⟨he1, he2⟩ := Prod.mk.injEq _ _ _ _ ▸ heq
            subst he1
            refine ⟨?_, ?_⟩
            · rw [store_object_state_changes, record_change_changes,
                store_source_code_changes]
              simp
            · exact ⟨_, he2.symm⟩
      · have hd2 : detectsChange st schema object_name object_type (raw_source.getD "") = false := by
          simpa using hd
        have hd2' := hd2
        unfold detectsChange at hd2'
        by_cases h3 : fail .storeState = true
        · right; right; right; right; right; left
          refine ⟨h0', h1', hd2, h3, ?_⟩
          simp only [process_object, h0', h1', Bool.false_eq_true, if_false, hd2',
            h3, if_true] at heq
          obtain ⟨he1, he2⟩ := Prod.mk.injEq _ _ _ _ ▸ heq
          subst he1
          exact ⟨(store_source_code_state _ _ _).symm ▸ rfl,
            (store_source_code_changes _ _ _).symm ▸ rfl, he2.symm⟩
        · have h3' : fail .storeState = false := by simpa using h3
          right; right; right; right; right; right
          refine ⟨h0', h1', hd2, h3', ?_⟩
          simp only [process_object, h0', h1', h3', Bool.false_eq_true, if_false,
            hd2'] at heq
          obtain ⟨he1, he2⟩ := Prod.mk.injEq _ _ _ _ ▸ heq
          subst he1
          refine ⟨?_, he2.symm⟩
          rw [store_object_state_changes, store_source_code_changes]

/-- C3 (witness for the amended theorem): a fully successful changed-object
run — prior baseline hash `"zz"`, new source `"x"`, no write failures —
lands in the success case of the outcome analysis: exactly one new
ChangeRecord is persisted. -/
theorem C3_amended_witness :
    (process_object noFail "base" "S" "OBJ" "VIEW" "2024" (some "x") 10
      ⟨[⟨"S", "OBJ", "VIEW", "zz", "2023", 5, none⟩], [], [], 1⟩).1.object_changes.length = 1 := by
  have h := C3_amended noFail "base" "S" "OBJ" "VIEW" "2024" (some "x") 10
    ⟨[⟨"S", "OBJ", "VIEW", "zz", "2023", 5, none⟩], [], [], 1⟩
    (process_object noFail "base" "S" "OBJ" "VIEW" "2024" (some "x") 10
      ⟨[⟨"S", "OBJ", "VIEW", "zz", "2023", 5, none⟩], [], [], 1⟩).1
    (process_object noFail "base" "S" "OBJ" "VIEW" "2024" (some "x") 10
      ⟨[⟨"S", "OBJ", "VIEW", "zz", "2023", 5, none⟩], [], [], 1⟩).2
    rfl
  rcases h with ⟨h1, -⟩ | ⟨-, h1, -⟩ | ⟨-, -, -, h1, -⟩ | ⟨-, -, -, -, h1, -⟩ |
    ⟨-, -, -, -, -, hlen, -⟩ | ⟨-, -, h1, -⟩ | ⟨-, -, h1, -⟩
  · exact absurd h1 (by decide)
  · exact absurd h1 (by decide)
  · exact absurd h1 (by decide)
  · exact absurd h1 (by decide)
  · simpa using hlen
  · exact absurd h1 (by decide)
  · exact absurd h1 (by decide)

/-! ### Snapshot-store and filesystem-content lemmas (C4, C5, C6) -/

theorem lookup_append_fresh (l : List (String × String)) (k v : String)
    (h : l.lookup k = none) : (l ++ [(k, v)]).lookup k = some v := by
  induction l with
  | nil => simp [List.lookup]
  | cons e l' ih =>
    simp only [List.lookup, List.cons_append] at h ⊢
    split at h
    · exact absurd h (by simp)
    · next hne => simpa [List.lookup, hne] using ih h

theorem store_source_lookup_isSome (h clean : String) (st : Ledger)
    (hc : clean ≠ "") :
    ((store_source_code h clean st).object_source.lookup h).isSome = true := by
  unfold store_source_code
  rw [if_neg hc]
  split
  · next hsome => simpa using hsome
  · next hnone =>
    simp only
    rw [lookup_append_fresh st.object_source h clean (by
      cases hl : st.object_source.lookup h with
      | none => rfl
      | some v => rw [hl] at hnone; simp at hnone)]
    rfl

theorem store_source_noop (h clean : String) (st : Ledger) (hc : clean ≠ "")
    (hsome : (st.object_source.lookup h).isSome = true) :
    store_source_code h clean st = st := by
  unfold store_source_code
  rw [if_neg hc, if_pos hsome]

/-- C4 (counterexample): the clean output of `normalize_code` on a bare
procedure declaration is the raw text itself (CRLF-normalization only),
but `save_to_filesystem` does not write it verbatim — it injects the
`CREATE OR REPLACE` prefix first. -/
theorem C4_counterexample :
    (normalize_code (some "PROCEDURE P IS BEGIN NULL; END;")).1 =
      "PROCEDURE P IS BEGIN NULL; END;" ∧
    save_to_filesystem_content "PROCEDURE"
        (normalize_code (some "PROCEDURE P IS BEGIN NULL; END;")).1 ≠
      some (normalize_code (some "PROCEDURE P IS BEGIN NULL; END;")).1 ∧
    save_to_filesystem_content "PROCEDURE"
        (normalize_code (some "PROCEDURE P IS BEGIN NULL; END;")).1 =
      some "CREATE OR REPLACE PROCEDURE P IS BEGIN NULL; END;" := by
  refine ⟨by decide, by decide, by decide⟩

/-- C4 (amended): for every raw input, the clean output of `normalize_code`
is the raw text with CRLF replaced by LF and no other modification, and
the SQLite snapshot store receives that clean text verbatim; the
filesystem copy, however, is the clean text with the `CREATE OR REPLACE
<type>` prefix adjustment applied — it equals the clean text only when the
object type is not one of the known types or the text already carries a
`CREATE OR REPLACE <type>` header. -/
theorem C4_amended (raw : String) (t code_hash : String) (st : Ledger)
    (hne : (normalize_code (some raw)).1 ≠ "")
    (hfresh : st.object_source.lookup code_hash = none) :
    (normalize_code (some raw)).1 = String.mk (pyCrlf raw.data) ∧
    ((store_source_code code_hash (normalize_code (some raw)).1 st).object_source.lookup
        code_hash = some (normalize_code (some raw)).1) ∧
    save_to_filesystem_content t (normalize_code (some raw)).1 =
      some (String.mk (fsPrefixAdjust t.data (normalize_code (some raw)).1.data)) ∧
    (objTypes.contains t.data = false ∨ searchCORP t.data (normalize_code (some raw)).1.data = true →
      save_to_filesystem_content t (normalize_code (some raw)).1 =
        some (normalize_code (some raw)).1) := by
  refine ⟨rfl, ?_, ?_, ?_⟩
  · unfold store_source_code
    rw [if_neg hne, if_neg (by simp [hfresh])]
    exact lookup_append_fresh st.object_source code_hash _ hfresh
  · show (saveContentL t.data (normalize_code (some raw)).1.data).map String.mk = _
    unfold saveContentL
    rw [if_neg (by
      cases hmk : (normalize_code (some raw)).1 with
      | mk l =>
        intro hl
        apply hne
        rw [hmk]
        simp only [List.isEmpty_eq_true] at hl
        rw [hl])]
    rfl
  · intro hcase
    show (saveContentL t.data (normalize_code (some raw)).1.data).map String.mk = _
    unfold saveContentL
    rw [if_neg (by
      cases hmk : (normalize_code (some raw)).1 with
      | mk l =>
        intro hl
        apply hne
        rw [hmk]
        simp only [List.isEmpty_eq_true] at hl
        rw [hl])]
    unfold fsPrefixAdjust
    rcases hcase with hcase | hcase
    · rw [if_neg (by rw [hcase]; simp)]
      rfl
    · by_cases hct : objTypes.contains t.data = true
      · rw [if_pos hct, if_pos hcase]
        rfl
      · rw [if_neg hct]
        rfl

/-- C4 (witness for the amended theorem): raw `"x"`, type `"VIEW"` (which
carries no bare declaration, so the adjustment is the identity), a fresh
hash in an empty ledger. -/
theorem C4_amended_witness :
    (normalize_code (some "x")).1 = String.mk (pyCrlf "x".data) ∧
    ((store_source_code "h1" (normalize_code (some "x")).1 emptyLedger).object_source.lookup
        "h1" = some (normalize_code (some "x")).1) ∧
    save_to_filesystem_content "VIEW" (normalize_code (some "x")).1 =
      some (String.mk (fsPrefixAdjust "VIEW".data (normalize_code (some "x")).1.data)) ∧
    (objTypes.contains "VIEW".data = false ∨ searchCORP "VIEW".data (normalize_code (some "x")).1.data = true →
      save_to_filesystem_content "VIEW" (normalize_code (some "x")).1 =
        some (normalize_code (some "x")).1) :=
  C4_amended "x" "VIEW" "h1" emptyLedger (by decide) (by decide)

theorem record_change_source (schema object_name object_type : String)
    (old_hash : Option String) (new_hash diff_summary : String)
    (changed_lines : Nat) (file_path : Option String) (today : Nat) (st : Ledger) :
    (record_change schema object_name object_type old_hash new_hash diff_summary
      changed_lines file_path today st).2.object_source = st.object_source := rfl

theorem store_object_state_source (schema object_name object_type : String)
    (code_hash last_modified : String) (file_path : Option String)
    (today : Nat) (st : Ledger) :
    (store_object_state schema object_name object_type code_hash last_modified
      file_path today st).object_source = st.object_source := rfl

theorem store_object_state_state (schema object_name object_type : String)
    (code_hash last_modified : String) (file_path : Option String)
    (today : Nat) (st : Ledger) :
    (store_object_state schema object_name object_type code_hash last_modified
      file_path today st).object_state =
      (⟨schema, object_name, object_type, code_hash, last_modified, today,
        file_path⟩ : StateRow) ::
        st.object_state.filter (fun r => !samePK r ⟨schema, object_name,
          object_type, code_hash, last_modified, today, file_path⟩) := rfl

theorem latestRow_head_max (row : StateRow) (others : List StateRow)
    (h : ∀ r ∈ others, r.capture_date ≤ row.capture_date) :
    latestRow (row :: others) = some row := by
  show List.foldl _ (some row) others = some row
  induction others with
  | nil => rfl
  | cons r rest ih =>
    have hr := h r (List.mem_cons_self r rest)
    simp only [List.foldl_cons]
    rw [show (if row.capture_date < r.capture_date then some r else some row) =
      some row from if_neg (by omega)]
    exact ih (fun x hx => h x (List.mem_cons_of_mem r hx))

theorem pyCrlf_ne_nil (l : List Char) (h : l ≠ []) : pyCrlf l ≠ [] := by
  cases l with
  | nil => exact absurd rfl h
  | cons c rest =>
    cases rest with
    | nil => simp [pyCrlf]
    | cons d rest2 =>
      unfold pyCrlf
      split <;> simp

theorem clean_ne_empty (s : String) (hs : s ≠ "") :
    (normalize_code (some s)).1 ≠ "" := by
  show String.mk (pyCrlf s.data) ≠ ""
  intro hmk
  have hdata : pyCrlf s.data = [] := by
    have := congrArg String.data hmk
    simpa using this
  refine pyCrlf_ne_nil s.data ?_ hdata
  intro hnil
  apply hs
  cases s with
  | mk l =>
    simp only at hnil
    rw [hnil]

theorem process_object_noFail_components
    (base_dir schema object_name object_type last_modified s : String)
    (today : Nat) (st : Ledger) (hs : s ≠ "") :
    (process_object noFail base_dir schema object_name object_type last_modified
      (some s) today st).1.object_state =
      (⟨schema, object_name, object_type, hash_code (normalize_code (some s)).2,
        last_modified, today,
        (save_to_filesystem_content object_type (normalize_code (some s)).1).map
          (fun _ => save_to_filesystem_path base_dir schema object_name object_type)⟩ : StateRow) ::
        st.object_state.filter (fun r => !samePK r
          ⟨schema, object_name, object_type, hash_code (normalize_code (some s)).2,
           last_modified, today,
           (save_to_filesystem_content object_type (normalize_code (some s)).1).map
             (fun _ => save_to_filesystem_path base_dir schema object_name object_type)⟩) ∧
    (process_object noFail base_dir schema object_name object_type last_modified
      (some s) today st).1.object_source =
      (store_source_code (hash_code (normalize_code (some s)).2)
        (normalize_code (some s)).1 st).object_source := by
  have h0 : rawEmpty (some s) = false := by
    simp only [rawEmpty, decide_eq_false_iff_not]
    exact hs
  unfold process_object
  rw [h0]
  simp only [Bool.false_eq_true, if_false, noFail, Option.getD_some]
  split
  · constructor
    · rw [store_object_state_state, record_change_state, store_source_code_state]
    · rw [store_object_state_source, record_change_source]
  · constructor
    · rw [store_object_state_state, store_source_code_state]
    · rw [store_object_state_source]

/-- C5: processing an object twice in immediate succession with identical
raw source (same day, all prior capture dates at most today, all writes
succeeding) creates ChangeRecords at most on the first call: the second
call finds the just-written state row with an equal fingerprint
(PRIOR_MATCHES), creates no ChangeRecord, refreshes the ObjectState row
with the same capture metadata, and in fact leaves the ledger exactly as
the first call left it, returning no change. -/
theorem C5_idempotent
    (base_dir schema object_name object_type last_modified s : String)
    (today : Nat) (st : Ledger) (hs : s ≠ "")
    (hdates : ∀ r ∈ st.object_state, r.schema = schema → r.object_name = object_name →
      r.object_type = object_type → r.capture_date ≤ today) :
    process_object noFail base_dir schema object_name object_type last_modified
        (some s) today
        (process_object noFail base_dir schema object_name object_type last_modified
          (some s) today st).1 =
      ((process_object noFail base_dir schema object_name object_type last_modified
          (some s) today st).1, Except.ok none) := by
  obtain ⟨hstate, hsource⟩ := process_object_noFail_components base_dir schema
    object_name object_type last_modified s today st hs
  have hclean : (normalize_code (some s)).1 ≠ "" := clean_ne_empty s hs
  have h0 : rawEmpty (some s) = false := by
    simp only [rawEmpty, decide_eq_false_iff_not]
    exact hs
  have hlk : (((process_object noFail base_dir schema object_name object_type
      last_modified (some s) today st).1).object_source.lookup
      (hash_code (normalize_code (some s)).2)).isSome = true := by
    rw [hsource]
    exact store_source_lookup_isSome _ _ st hclean
  have hnoop : store_source_code (hash_code (normalize_code (some s)).2)
      (normalize_code (some s)).1
      (process_object noFail base_dir schema object_name object_type
        last_modified (some s) today st).1 =
      (process_object noFail base_dir schema object_name object_type
        last_modified (some s) today st).1 :=
    store_source_noop _ _ _ hclean hlk
  generalize hG : (process_object noFail base_dir schema object_name object_type
    last_modified (some s) today st).1 = st1 at hstate hsource hlk hnoop ⊢
  have hpred : (fun (r : StateRow) => r.schema = schema &&
      r.object_name = object_name && r.object_type = object_type)
      (⟨schema, object_name, object_type, hash_code (normalize_code (some s)).2,
        last_modified, today,
        (save_to_filesystem_content object_type (normalize_code (some s)).1).map
          (fun _ => save_to_filesystem_path base_dir schema object_name
            object_type)⟩ : StateRow) = true := by simp
  have hprev : get_previous_state schema object_name object_type
      st1 =
      some ⟨hash_code (normalize_code (some s)).2, today, last_modified,
        (save_to_filesystem_content object_type (normalize_code (some s)).1).map
          (fun _ => save_to_filesystem_path base_dir schema object_name object_type),
        (st1).object_source.lookup
          (hash_code (normalize_code (some s)).2)⟩ := by
    unfold get_previous_state
    rw [hstate]
    rw [List.filter_cons, if_pos hpred]
    rw [latestRow_head_max _ _ (by
      intro r hr
      rw [List.mem_filter] at hr
      obtain ⟨hr1, hr2⟩ := hr
      rw [List.mem_filter] at hr1
      simp only [Bool.and_eq_true, decide_eq_true_eq] at hr2
      exact hdates r hr1.1 hr2.1.1 hr2.1.2 hr2.2)]
  unfold process_object
  rw [h0]
  simp only [Bool.false_eq_true, if_false, noFail, Option.getD_some]
  rw [hnoop, hprev]
  rw [if_neg (by simp)]
  have hfinal : store_object_state schema object_name object_type
      (hash_code (normalize_code (some s)).2) last_modified
      ((save_to_filesystem_content object_type (normalize_code (some s)).1).map
        (fun _ => save_to_filesystem_path base_dir schema object_name object_type))
      today st1 = st1 := by
    have hv : (store_object_state schema object_name object_type
        (hash_code (normalize_code (some s)).2) last_modified
        ((save_to_filesystem_content object_type (normalize_code (some s)).1).map
          (fun _ => save_to_filesystem_path base_dir schema object_name object_type))
        today st1).object_state = st1.object_state := by
      rw [store_object_state_state, hstate]
      congr 1
      rw [List.filter_cons, if_neg (by simp [samePK])]
      rw [List.filter_filter]
      simp
    show ({ st1 with object_state := (store_object_state schema object_name
      object_type (hash_code (normalize_code (some s)).2) last_modified
      ((save_to_filesystem_content object_type (normalize_code (some s)).1).map
        (fun _ => save_to_filesystem_path base_dir schema object_name object_type))
      today st1).object_state } : Ledger) = st1
    rw [hv]
  rw [hfinal]

/-- C5 (witness): source `"x"` processed twice from the empty ledger. -/
theorem C5_idempotent_witness :
    process_object noFail "b" "S" "OBJ" "VIEW" "2024" (some "x") 10
        (process_object noFail "b" "S" "OBJ" "VIEW" "2024" (some "x") 10
          emptyLedger).1 =
      ((process_object noFail "b" "S" "OBJ" "VIEW" "2024" (some "x") 10
          emptyLedger).1, Except.ok none) :=
  C5_idempotent "b" "S" "OBJ" "VIEW" "2024" "x" 10 emptyLedger (by decide)
    (by intro r hr; simp [emptyLedger] at hr)

/-- C6 (counterexample): with `t1 = ""` the first store is itself skipped by
the falsy-text guard, so the second store with different text `t2 = "x"` is
not a no-op and the stored text ends up `"x"`, not `t1`. -/
theorem C6_counterexample :
    store_source_code "f" "x" (store_source_code "f" "" emptyLedger) ≠
      store_source_code "f" "" emptyLedger ∧
    (store_source_code "f" "x" (store_source_code "f" "" emptyLedger)).object_source.lookup
      "f" = some "x" ∧
    ("x" : String) ≠ ("" : String) := by
  refine ⟨by decide, by decide, by decide⟩

/-- C6 (amended): the snapshot store is write-once per fingerprint for
nonempty text: for every fingerprint `f` not yet present and every nonempty
`t1`, after `store_source_code(f, t1)` a subsequent `store_source_code(f,
t2)` is a no-op for any `t2`, leaving the stored text for `f` equal to
`t1` even when `t2` differs.  (Empty `t1` is skipped by the falsy-text
guard, so nothing is stored and a later nonempty `t2` wins.) -/
theorem C6_amended (f t1 t2 : String) (st : Ledger) (h1 : t1 ≠ "")
    (hfresh : st.object_source.lookup f = none) :
    store_source_code f t2 (store_source_code f t1 st) =
      store_source_code f t1 st ∧
    (store_source_code f t1 st).object_source.lookup f = some t1 := by
  have hlk : (store_source_code f t1 st).object_source.lookup f = some t1 := by
    unfold store_source_code
    rw [if_neg h1, if_neg (by simp [hfresh])]
    exact lookup_append_fresh _ _ _ hfresh
  refine ⟨?_, hlk⟩
  by_cases h2 : t2 = ""
  · subst h2
    unfold store_source_code
    rw [if_pos rfl]
  · exact store_source_noop f t2 _ h2 (by rw [hlk]; rfl)

/-- C6 (witness for the amended theorem): fingerprint `"f"`, texts `"x"`
then a different `"y"`, starting from the empty ledger. -/
theorem C6_amended_witness :
    store_source_code "f" "y" (store_source_code "f" "x" emptyLedger) =
      store_source_code "f" "x" emptyLedger ∧
    (store_source_code "f" "x" emptyLedger).object_source.lookup "f" = some "x" :=
  C6_amended "f" "x" "y" emptyLedger (by decide) (by decide)

/-- C7: for every object whose raw source is empty or unfetchable,
`_process_object` returns before touching the ledger: no ObjectState, no
ChangeRecord, no snapshot — the ledger is returned unchanged with no
change result (so the object is retried next cycle, nothing having been
persisted), whatever the failure injection. -/
theorem C7_skip_unfetchable (fail : FailSpec)
    (base_dir schema object_name object_type last_modified : String)
    (raw_source : Option String) (today : Nat) (st : Ledger)
    (h : rawEmpty raw_source = true) :
    process_object fail base_dir schema object_name object_type last_modified
      raw_source today st = (st, Except.ok none) := by
  unfold process_object
  rw [h]
  simp

/-- C7 (witness): an empty fetched source, with every write set to fail —
still no ledger mutation. -/
theorem C7_skip_unfetchable_witness :
    process_object (fun _ => true) "b" "S" "OBJ" "VIEW" "2024" (some "") 10
      emptyLedger = (emptyLedger, Except.ok none) :=
  C7_skip_unfetchable (fun _ => true) "b" "S" "OBJ" "VIEW" "2024" (some "") 10
    emptyLedger (by decide)

/-- C10: the truncated changed-content preview computed by the recorder at
change-detection time (`change_tracker.py` lines 215–229) and the one
computed by the selector at notification time (`sqlite_store.py` lines
273–288) are the same function of the diff text, and both keep exactly the
lines starting with `+` but not `+++`, truncate to the first ten such
lines, and append the ellipsis marker exactly when more than ten were
present. -/
theorem C10_preview_equal (diff_text : String) :
    trackerChangedContent diff_text = storeChangedContent diff_text ∧
    trackerChangedContent diff_text =
      String.mk (joinWith ['\n']
        (((pySplitlines diff_text.data).filter (fun l => plusMinusLinePlus l)).take 10)) ++
      (if 10 < ((pySplitlines diff_text.data).filter
          (fun l => plusMinusLinePlus l)).length then "\n..." else "") :=
  ⟨rfl, rfl⟩
/-- C8: `get_unnotified_changes(hours)` selects exactly the change rows with
`notified = false` and `change_date >=` the date-granularity cutoff
`now - hours` (each rendered as a summary with the derived preview);
`send_daily_summary` marks the notified flag only after confirmed delivery
(`delivered = false` changes nothing), and marks exactly the ids of the
selected batch; a repeat selection after a successful send returns nothing;
and in the concrete scenario of three unnotified records with two inside
the trailing 24-hour window, the selection is exactly those two, then empty
after marking. -/
theorem C8_selector :
    (∀ (hours nowHours : Nat) (st : Ledger) (c : ChangeSummary),
      c ∈ get_unnotified_changes hours nowHours st ↔
      ∃ row ∈ st.object_changes, row.notified = false ∧
        cutoffDate nowHours hours ≤ row.change_date ∧
        c = ⟨row.id, row.schema, row.object_name, row.object_type,
             row.change_date, row.changed_lines, row.file_path,
             row.git_commit_sha, storeChangedContent row.diff_summary⟩) ∧
    (∀ (nowHours : Nat) (st : Ledger),
      send_daily_summary false nowHours st = (st, false)) ∧
    (∀ (nowHours : Nat) (st : Ledger),
      (send_daily_summary true nowHours st).1.object_changes =
        st.object_changes.map (fun c =>
          if ((get_unnotified_changes 24 nowHours st).map (fun x => x.id)).contains c.id
          then { c with notified := true } else c)) ∧
    (∀ (nowHours : Nat) (st : Ledger),
      get_unnotified_changes 24 nowHours (send_daily_summary true nowHours st).1 = []) ∧
    ((get_unnotified_changes 24 120
        ⟨[], [⟨1, "S", "A", "PACKAGE", 5, none, "h1", "d1", 1, none, false, none⟩,
              ⟨2, "S", "B", "PACKAGE", 4, none, "h2", "d2", 1, none, false, none⟩,
              ⟨3, "S", "C", "PACKAGE", 2, none, "h3", "d3", 1, none, false, none⟩],
          [], 4⟩).map (fun c => c.id) = [1, 2] ∧
      get_unnotified_changes 24 120
        (send_daily_summary true 120
          ⟨[], [⟨1, "S", "A", "PACKAGE", 5, none, "h1", "d1", 1, none, false, none⟩,
                ⟨2, "S", "B", "PACKAGE", 4, none, "h2", "d2", 1, none, false, none⟩,
                ⟨3, "S", "C", "PACKAGE", 2, none, "h3", "d3", 1, none, false, none⟩],
            [], 4⟩).1 = []) := by
  have hmem : ∀ (hours nowHours : Nat) (st : Ledger) (c : ChangeSummary),
      c ∈ get_unnotified_changes hours nowHours st ↔
      ∃ row ∈ st.object_changes, row.notified = false ∧
        cutoffDate nowHours hours ≤ row.change_date ∧
        c = ⟨row.id, row.schema, row.object_name, row.object_type,
             row.change_date, row.changed_lines, row.file_path,
             row.git_commit_sha, storeChangedContent row.diff_summary⟩ := by
    intro hours nowHours st c
    unfold get_unnotified_changes
    rw [List.mem_map]
    constructor
    · rintro ⟨row, hrow, hc⟩
      rw [List.mem_filter] at hrow
      obtain ⟨hrow1, hrow2⟩ := hrow
      simp only [Bool.and_eq_true, Bool.not_eq_true', decide_eq_true_eq] at hrow2
      exact ⟨row, hrow1, hrow2.1, hrow2.2, hc.symm⟩
    · rintro ⟨row, hrow, hn, hcut, hc⟩
      refine ⟨row, ?_, hc.symm⟩
      rw [List.mem_filter]
      refine ⟨hrow, ?_⟩
      simp only [Bool.and_eq_true, Bool.not_eq_true', decide_eq_true_eq]
      exact ⟨hn, hcut⟩
  refine ⟨hmem, ?_, ?_, ?_, by constructor <;> decide⟩
  · intro nowHours st
    rfl
  · intro nowHours st
    show (mark_changes_as_notified
      ((get_unnotified_changes 24 nowHours st).map (fun c => c.id)) st).object_changes = _
    unfold mark_changes_as_notified
    split
    · next hemp =>
      rw [show ((get_unnotified_changes 24 nowHours st).map (fun c => c.id)) = []
        from by simpa using hemp]
      simp
    · rfl
  · intro nowHours st
    have hmarked : (send_daily_summary true nowHours st).1.object_changes =
        st.object_changes.map (fun c =>
          if ((get_unnotified_changes 24 nowHours st).map (fun x => x.id)).contains c.id
          then { c with notified := true } else c) := by
      show (mark_changes_as_notified
        ((get_unnotified_changes 24 nowHours st).map (fun c => c.id)) st).object_changes = _
      unfold mark_changes_as_notified
      split
      · next hemp =>
        rw [show ((get_unnotified_changes 24 nowHours st).map (fun c => c.id)) = []
          from by simpa using hemp]
        simp
      · rfl
    unfold get_unnotified_changes
    rw [hmarked]
    rw [show (st.object_changes.map (fun c =>
        if ((get_unnotified_changes 24 nowHours st).map (fun x => x.id)).contains c.id
        then { c with notified := true } else c)).filter
        (fun c => !c.notified && cutoffDate nowHours 24 ≤ c.change_date) = [] from ?_]
    · rfl
    · rw [List.filter_eq_nil_iff]
      intro c hc
      rw [List.mem_map] at hc
      obtain ⟨row, hrow, hupd⟩ := hc
      intro hpred
      simp only [Bool.and_eq_true, Bool.not_eq_true', decide_eq_true_eq] at hpred
      by_cases hid : ((get_unnotified_changes 24 nowHours st).map (fun x => x.id)).contains row.id = true
      · rw [if_pos hid] at hupd
        rw [← hupd] at hpred
        simp at hpred
      · rw [if_neg hid] at hupd
        rw [← hupd] at hpred
        apply hid
        rw [List.contains_eq_any_beq]
        rw [List.any_eq_true]
        refine ⟨row.id, ?_, by simp⟩
        rw [List.mem_map]
        refine ⟨⟨row.id, row.schema, row.object_name, row.object_type, row.change_date,
          row.changed_lines, row.file_path, row.git_commit_sha,
          storeChangedContent row.diff_summary⟩, ?_, rfl⟩
        rw [hmem 24 nowHours st]
        exact ⟨row, hrow, hpred.1, hpred.2, rfl⟩
theorem mult_le_of_block (ih h m : Nat) (hih : 0 < ih) (hm : m % ih = 0)
    (hgt : h < m) : (h / ih + 1) * ih ≤ m := by
  by_contra hc
  push_neg at hc
  have hq : m / ih < h / ih + 1 := (Nat.div_lt_iff_lt_mul hih).mpr hc
  have he : m / ih * ih = m := Nat.div_mul_cancel (Nat.dvd_of_mod_eq_zero hm)
  have h3 : m / ih ≤ h / ih := Nat.lt_succ_iff.mp hq
  have h4 : m ≤ h := by
    calc m = m / ih * ih := he.symm
    _ ≤ h / ih * ih := Nat.mul_le_mul_right ih h3
    _ ≤ h := Nat.div_mul_le_self h ih
  omega

/-- C9: for a positive interval and a current time with a valid hour,
`calculate_next_runtime` returns the start of an interval block (hour a
multiple of the interval, top of the hour) strictly after now, and it is
the least such instant; in particular at interval 3 it maps 02:10 to 03:00
the same day and 23:30 to 00:00 the next day. -/
theorem C9_next_runtime :
    (∀ (ih : Nat) (t : Instant), 1 ≤ ih → t.hour < 24 →
      isBlockStart ih (calculate_next_runtime ih t) ∧
      instLt t (calculate_next_runtime ih t) = true ∧
      ∀ u : Instant, isBlockStart ih u → instLt t u = true →
        instLe (calculate_next_runtime ih t) u = true) ∧
    calculate_next_runtime 3 ⟨0, 2, 10⟩ = ⟨0, 3, 0⟩ ∧
    calculate_next_runtime 3 ⟨0, 23, 30⟩ = ⟨1, 0, 0⟩ := by
  refine ⟨?_, by decide, by decide⟩
  intro ih t h1 h2
  obtain ⟨d, h, s⟩ := t
  simp only at h2
  have hih : 0 < ih := h1
  have hgt : h < (h / ih + 1) * ih := by
    have e1 : ih * (h / ih) + h % ih = h := Nat.div_add_mod h ih
    have e2 : h % ih < ih := Nat.mod_lt h hih
    have e3 : (h / ih + 1) * ih = ih * (h / ih) + ih := by ring
    omega
  have hmod : ((h / ih + 1) * ih) % ih = 0 := Nat.mul_mod_left _ _
  by_cases hcase : 24 ≤ (h / ih + 1) * ih
  · have hres : calculate_next_runtime ih ⟨d, h, s⟩ = ⟨d + 1, 0, 0⟩ := by
      have hcond : ¬ (instLe ⟨d + 1, 0, 0⟩ ⟨d, h, s⟩ = true) := by
        simp only [instLe, instLt, Bool.or_eq_true, Bool.and_eq_true,
          decide_eq_true_eq, Instant.mk.injEq]
        omega
      simp only [calculate_next_runtime]
      rw [if_pos hcase, if_neg hcond]
    rw [hres]
    refine ⟨⟨(by omega : (0:Nat) < 24), by simp, rfl⟩, ?_, ?_⟩
    · simp only [instLt, Bool.or_eq_true, Bool.and_eq_true, decide_eq_true_eq]
      omega
    · intro u hu hlt
      obtain ⟨du, hu2, su⟩ := u
      obtain ⟨hub1, hub2, hub3⟩ := hu
      simp only at hub1 hub2 hub3
      simp only [instLt, Bool.or_eq_true, Bool.and_eq_true,
        decide_eq_true_eq] at hlt
      simp only [instLe, instLt, Bool.or_eq_true, Bool.and_eq_true,
        decide_eq_true_eq, Instant.mk.injEq]
      rcases hlt with hd | ⟨hdeq, hh | ⟨hheq, hs⟩⟩
      · omega
      · have hle := mult_le_of_block ih h hu2 hih hub2 hh
        omega
      · omega
  · push_neg at hcase
    have hres : calculate_next_runtime ih ⟨d, h, s⟩ =
        ⟨d, (h / ih + 1) * ih, 0⟩ := by
      have hcond : ¬ (instLe ⟨d, (h / ih + 1) * ih, 0⟩ ⟨d, h, s⟩ = true) := by
        simp only [instLe, instLt, Bool.or_eq_true, Bool.and_eq_true,
          decide_eq_true_eq, Instant.mk.injEq]
        omega
      simp only [calculate_next_runtime]
      rw [if_neg (show ¬ 24 ≤ (h / ih + 1) * ih by omega), if_neg hcond]
    rw [hres]
    refine ⟨⟨(by omega : (h / ih + 1) * ih < 24), hmod, rfl⟩, ?_, ?_⟩
    · simp only [instLt, Bool.or_eq_true, Bool.and_eq_true, decide_eq_true_eq]
      exact Or.inr ⟨by simp, Or.inl hgt⟩
    · intro u hu hlt
      obtain ⟨du, hu2, su⟩ := u
      obtain ⟨hub1, hub2, hub3⟩ := hu
      simp only at hub1 hub2 hub3
      simp only [instLt, Bool.or_eq_true, Bool.and_eq_true,
        decide_eq_true_eq] at hlt
      simp only [instLe, instLt, Bool.or_eq_true, Bool.and_eq_true,
        decide_eq_true_eq, Instant.mk.injEq]
      rcases hlt with hd | ⟨hdeq, hh | ⟨hheq, hs⟩⟩
      · omega
      · have hle := mult_le_of_block ih h hu2 hih hub2 hh
        omega
      · omega
